import Mathlib

/-!
Verification of the RAID5 recovery repository (nbd_raid5.py, recovery.py).

Shallow embedding conventions:
* a byte string is a `List Nat` (numpy uint8 buffers and Python `bytes` alike);
* a file on disk is the `List Nat` of its bytes; files are named by `Nat` ids
  and a map `files : Nat → List Nat` plays the role of the filesystem;
* Python exceptions are modelled with `Option`: `none` is the raised exception;
* `fd.seek(k); fd.read(n)` is `(bytes.drop k).take n`, which, exactly like the
  Python calls, returns fewer than `n` bytes near the end of the file.
-/

namespace RaidRec

/-- The namedtuple `DiskGeometry('id raid_index fname startKB endKB')` of
nbd_raid5.py.  The filesystem path `fname` is abstracted to the numeric `id`
that indexes the file-contents map.  The `startKB`/`endKB` fields hold whatever
integers `read_geometry` stored in them. -/
structure DiskGeometry where
  id : Nat
  raid_index : Nat
  startKB : Nat
  endKB : Nat
deriving DecidableEq, Repr

/-- One whitespace-tokenised, non-comment line of the geometry file, after
lexing: `id raid_index path startKB endKB`.  The path is abstracted to the id;
the two extent fields are the decimal numbers written in the file. -/
structure GeomRecord where
  id : Nat
  raid_idx : Nat
  startKB : ℚ
  endKB : ℚ

/-- `read_geometry` of nbd_raid5.py, after lexing: each record becomes a
`DiskGeometry` whose extent fields are `int(float(start)*1024)` and
`int(float(end)*1024)` — the decimal kilobyte value multiplied by 1024 and
truncated to an integer (the geometry files carry non-negative offsets, where
truncation is the floor). -/
def read_geometry (records : List GeomRecord) : List DiskGeometry :=
  records.map (fun r =>
    ⟨r.id, r.raid_idx, (⌊r.startKB * 1024⌋).toNat, (⌊r.endKB * 1024⌋).toNat⟩)

/-- `len(set(image.raid_index for image in geometry))`, the `ndisks` count
computed by both `get_size` and `pread` in nbd_raid5.py. -/
def ndisksOf (geometry : List DiskGeometry) : Nat :=
  ((geometry.map (fun image => image.raid_index)).dedup).length

/-- `get_size` of nbd_raid5.py, verbatim: `sizesKB` is the per-image
`endKB - startKB` difference of the stored fields, and the result is
`sum(sizesKB) * 1024 * (ndisks - 1) // ndisks`. -/
def get_size (geometry : List DiskGeometry) : Nat :=
  let sizesKB := geometry.map (fun image => image.endKB - image.startKB)
  let ndisks := ndisksOf geometry
  sizesKB.sum * 1024 * (ndisks - 1) / ndisks

/-- `raid5_stripes` — identical in recovery.py and nbd_raid5.py.  It fills a
`[-1] * ndisks` vector by `stripes[disk - offset] = disk + first_stripe` for
`disk in range(ndisks - 1)`; Python's negative list index `disk - offset`
wraps modulo the length, embedded here as `(disk + ndisks - offset) % ndisks`.
The trailing `start` parameter of the source is 0 at every call site and is
omitted. -/
def raid5_stripes (ndisks page_index : Nat) : List Int :=
  let offset := page_index % ndisks
  let first_stripe := page_index * (ndisks - 1)
  (List.range (ndisks - 1)).foldl
    (fun stripes disk =>
      stripes.set ((disk + ndisks - offset) % ndisks) ((disk + first_stripe : Nat) : Int))
    (List.replicate ndisks (-1))

/-- `np.argsort` on a vector of distinct keys: the list of positions sorted by
key value.  Embedded with insertion sort; on distinct keys every comparison
sort (including numpy's quicksort) returns the same unique answer. -/
def argsort (l : List Int) : List Nat :=
  List.insertionSort (fun i j => l.getD i 0 ≤ l.getD j 0) (List.range l.length)

/-- The body of `pread`'s inner `for image in geometry` loop for one raid slot:
append the page-sized read from every image whose `raid_index` matches and
whose `[startKB, endKB)` extent contains the page address `pageKB`; the read
is `fd.seek((pageKB - image.startKB) * 1024); fd.read(pagesizeKB * 1024)`. -/
def readStripeSlot (geometry : List DiskGeometry) (files : Nat → List Nat)
    (pagesizeKB pageKB raid_idx : Nat) : List Nat :=
  (geometry.filter (fun image =>
      image.raid_index == raid_idx && decide (image.startKB ≤ pageKB)
        && decide (pageKB < image.endKB))).foldl
    (fun acc image =>
      acc ++ ((files image.id).drop ((pageKB - image.startKB) * 1024)).take (pagesizeKB * 1024))
    []

/-- `pread`'s `for page in range(start_page, end_page)` loop from nbd_raid5.py.
`buf` is the caller's buffer, `pos` the write position, `mod_page` the head
trim of the first stripe.  `mybuf` is the concatenation, over the argsorted
non-parity slots, of the per-slot reads; `buf[pos:pos+mylen] = mybuf[:mylen]`
is the list splice; `mylen == 0` triggers the `break`. -/
def preadLoop (geometry : List DiskGeometry) (files : Nat → List Nat)
    (pagesizeKB ndisks : Nat) :
    List Nat → List Nat → Nat → Nat → List Nat
  | [], buf, _, _ => buf
  | page :: rest, buf, pos, mod_page =>
    let stripes := raid5_stripes ndisks page
    let sorted_idxs := (argsort stripes).drop 1
    let pageKB := page * pagesizeKB
    let mybuf :=
      (sorted_idxs.foldl
        (fun acc raid_idx => acc ++ readStripeSlot geometry files pagesizeKB pageKB raid_idx)
        []).drop mod_page
    let mylen := if pos + mybuf.length > buf.length then buf.length - pos else mybuf.length
    if mylen = 0 then buf
    else preadLoop geometry files pagesizeKB ndisks rest
      (buf.take pos ++ mybuf.take mylen ++ buf.drop (pos + mylen)) (pos + mylen) 0

/-- `pread(h, buf, offset, flags)` of nbd_raid5.py.  The handle is the pair of
the parsed geometry and the file map; the result is the buffer after all the
slice assignments (the source mutates `buf` in place and returns nothing). -/
def pread (geometry : List DiskGeometry) (files : Nat → List Nat)
    (pagesizeKB : Nat) (buf : List Nat) (offset : Nat) : List Nat :=
  let ndisks := ndisksOf geometry
  let raidpagesize := pagesizeKB * 1024 * (ndisks - 1)
  let start_page := offset / raidpagesize
  let end_page := (offset + buf.length) / raidpagesize + 1
  let mod_page := offset % raidpagesize
  preadLoop geometry files pagesizeKB ndisks
    (List.range' start_page (end_page - start_page)) buf 0 mod_page

/-- `read_page(fname, pagesize, page)` of recovery.py: seek to
`page * pagesize` and read `pagesize` bytes. -/
def read_page (contents : List Nat) (pagesize page : Nat) : List Nat :=
  (contents.drop (page * pagesize)).take pagesize

/-- Elementwise XOR of two byte buffers: `operator.xor` on numpy uint8
arrays. -/
def pageXor (a b : List Nat) : List Nat :=
  List.zipWith Nat.xor a b

/-- `parity_check(data_chunks)` of recovery.py:
`data_chunks[0] == functools.reduce(operator.xor, data_chunks[1:])`.
With fewer than two chunks the Python raises; that case never occurs in this
development and is embedded as `false`. -/
def parity_check (data_chunks : List (List Nat)) : Bool :=
  match data_chunks with
  | d0 :: d1 :: rest => d0 == rest.foldl pageXor d1
  | _ => false

/-- `itertools.combinations(fnames, n)`, in the same
lexicographic-by-position enumeration order as the Python iterator. -/
def combinations {α : Type} : Nat → List α → List (List α)
  | 0, _ => [[]]
  | _ + 1, [] => []
  | n + 1, x :: xs => (combinations n xs).map (fun c => x :: c) ++ combinations (n + 1) xs

/-- `detected[comb].append(b)` on the insertion-ordered
`collections.defaultdict(list)`: append to the existing entry if the key is
present, otherwise add the key at the end with a singleton list. -/
def record (detected : List (List Nat × List Bool)) (comb : List Nat) (b : Bool) :
    List (List Nat × List Bool) :=
  match detected with
  | [] => [(comb, [b])]
  | e :: rest => if e.1 = comb then (e.1, e.2 ++ [b]) :: rest else e :: record rest comb b

/-- Dictionary lookup `detected[comb]`: the value at the first matching key. -/
def lookupComb (detected : List (List Nat × List Bool)) (comb : List Nat) :
    Option (List Bool) :=
  match detected with
  | [] => none
  | e :: rest => if e.1 = comb then some e.2 else lookupComb rest comb

/-- The inner `for comb in itertools.combinations(...)` loop of `guess_set`
for one page: record each parity check in `detected`; when `test_all` is
false, `break` right after the first passing combination. -/
def guessScanPage (files : Nat → List Nat) (pagesize page : Nat) (test_all : Bool) :
    List (List Nat) → List (List Nat × List Bool) → List (List Nat × List Bool)
  | [], detected => detected
  | comb :: rest, detected =>
    let check := parity_check (comb.map (fun fname => read_page (files fname) pagesize page))
    let detected' := record detected comb check
    if check && !test_all then detected'
    else guessScanPage files pagesize page test_all rest detected'

/-- `guess_set(fnames, ndisks, pagesize, pages, test_all)` of recovery.py:
the outer loop runs over `pages`, the inner loop over all combinations (with
the first-match break); the result keeps, in dict insertion order, the
combinations all of whose recorded checks are true. -/
def guess_set (fnames : List Nat) (ndisks : Nat) (files : Nat → List Nat)
    (pagesize : Nat) (pages : List Nat) (test_all : Bool) : List (List Nat) :=
  let combs := combinations ndisks fnames
  let detected := pages.foldl
    (fun det page => guessScanPage files pagesize page test_all combs det) []
  (detected.filter (fun e => e.2.all (fun b => b))).map (fun e => e.1)

/-- `test_parity(fnames, pagesize, pages)` of recovery.py, as the pair of
(1) the `passed` flag — initialised `True`, cleared by every failing page and
never read again in the source — and (2) the last value of the loop variable
`check`, which is what the final `print(f'Parity check ', ...)` reports;
`none` models the `NameError` raised there when `pages` is empty and `check`
was never assigned.  (The `stripes` variable the loop computes is unused in
the source and is omitted.) -/
def test_parityRun (contents : List (List Nat)) (pagesize : Nat) (pages : List Nat) :
    Bool × Option Bool :=
  pages.foldl
    (fun st page =>
      let check := parity_check (contents.map (fun c => read_page c pagesize page))
      (st.1 && check, some check))
    (true, none)

/-- The summary verdict actually printed by `test_parity`: the parity result
of the last probed page; `none` is the `NameError` on an empty page set. -/
def test_parity (contents : List (List Nat)) (pagesize : Nat) (pages : List Nat) :
    Option Bool :=
  (test_parityRun contents pagesize pages).2

/-- The `for page in pages` loop of `restore` in recovery.py.  `acc` is the
byte string written to the output file so far; `none` models the raised
`GenericException('Parity check failed for page ...')`; `data[idx]` is
`data.getD idx []`. -/
def restoreLoop (contents : List (List Nat)) (pagesize : Nat) :
    List Nat → List Nat → Option (List Nat)
  | [], acc => some acc
  | page :: rest, acc =>
    let ndisks := contents.length
    let stripes := raid5_stripes ndisks page
    let data := contents.map (fun c => read_page c pagesize page)
    if parity_check data then
      let sorted_idxs := (argsort stripes).drop 1
      restoreLoop contents pagesize rest
        (sorted_idxs.foldl (fun acc2 idx => acc2 ++ data.getD idx []) acc)
    else none

/-- `restore(fnames, pagesize_kB, pages, output_filename)` of recovery.py:
page size given in KB, output file starts empty; the result is the written
file, or `none` on a parity failure. -/
def restore (contents : List (List Nat)) (pagesize_kB : Nat) (pages : List Nat) :
    Option (List Nat) :=
  restoreLoop contents (pagesize_kB * 1024) pages []

/-! ### The synthesised RAID5 image set

The round-trip and translator-equivalence claims quantify over image sets
synthesised from a data string `D` by striping it with the stripe-map rule
implemented by `raid5_stripes` and computing the parity page as the XOR of
the stripe's data pages.  The following definitions build that set. -/

/-- The `i`-th logical data page of the volume `D`: bytes
`[i·P, (i+1)·P)` with `P = pagesizeKB * 1024`. -/
def dataPage (D : List Nat) (pagesizeKB i : Nat) : List Nat :=
  (D.drop (i * (pagesizeKB * 1024))).take (pagesizeKB * 1024)

/-- XOR-fold of a list of pages (`functools.reduce` style: the first page is
the initial accumulator). -/
def xorFoldList (pages : List (List Nat)) : List Nat :=
  match pages with
  | [] => []
  | d :: rest => rest.foldl pageXor d

/-- The parity page of stripe `page`: XOR of that stripe's `ndisks - 1` data
pages. -/
def parityPage (D : List Nat) (ndisks pagesizeKB page : Nat) : List Nat :=
  xorFoldList ((List.range (ndisks - 1)).map
    (fun d => dataPage D pagesizeKB (page * (ndisks - 1) + d)))

/-- Page `page` of member (column) `m` of the synthesised set: the data page
whose linear index `raid5_stripes` assigns to slot `m`, or the XOR parity
page when the slot holds the marker `-1`. -/
def memberPage (D : List Nat) (ndisks pagesizeKB m page : Nat) : List Nat :=
  let v := (raid5_stripes ndisks page).getD m (-1)
  if v < 0 then parityPage D ndisks pagesizeKB page
  else dataPage D pagesizeKB v.toNat

/-- The full image file of member `m`: its `npages` pages concatenated,
starting at byte offset 0. -/
def memberFile (D : List Nat) (ndisks pagesizeKB npages m : Nat) : List Nat :=
  ((List.range npages).map (fun page => memberPage D ndisks pagesizeKB m page)).flatten

/-- Geometry of the synthesised set: one full-extent image per member, with
id and raid index both `m` and extent `[0, npages * pagesizeKB)` KiB. -/
def synthGeometry (ndisks pagesizeKB npages : Nat) : List DiskGeometry :=
  (List.range ndisks).map (fun m => ⟨m, m, 0, npages * pagesizeKB⟩)

/-- The logical-stripe byte size `raidpagesize = pagesizeKB * 1024 * (ndisks - 1)`
computed by `pread`. -/
def stripeSize (pagesizeKB ndisks : Nat) : Nat :=
  pagesizeKB * 1024 * (ndisks - 1)

/-- Executable strict-increase test on a vector of stripe values, used to
state ordering properties of `raid5_stripes`. -/
def strictlyIncreasing : List Int → Bool
  | [] => true
  | [_] => true
  | a :: b :: rest => decide (a < b) && strictlyIncreasing (b :: rest)

/-- No image of `geometry` covers the page whose single-disk address is
`pageKB` — the coverage test of `pread`'s inner loop fails everywhere. -/
def uncoveredPage (geometry : List DiskGeometry) (pageKB : Nat) : Prop :=
  ∀ image ∈ geometry, ¬ (image.startKB ≤ pageKB ∧ pageKB < image.endKB)

/-! ### Concrete instances used as counterexamples and witnesses -/

/-- A valid geometry file with three members (raid indices 0, 1, 2), each an
extent of 4 KB starting at 0: `read_geometry` stores 0 and 4096 bytes. -/
def exC5records : List GeomRecord :=
  [⟨0, 0, 0, 4⟩, ⟨1, 1, 0, 4⟩, ⟨2, 2, 0, 4⟩]

/-- Three one-byte-page member files probed on two pages: parity fails on
page 0 (`1 ⊕ 1 ⊕ 1 = 1 ≠ 0`) and holds on page 1 (`0 ⊕ 5 ⊕ 5 = 0`). -/
def exC6contents : List (List Nat) :=
  [[1, 0], [1, 5], [1, 5]]

/-- Three candidate files forming the single 3-combination; with one-byte
pages, parity holds on page 0 (`0,5,5`) and fails on page 1 (`1,1,1`). -/
def exC7files : Nat → List Nat :=
  fun fname => if fname = 0 then [0, 1] else [5, 1]

/-- Three files whose only page is the zero byte, so every parity check
passes. -/
def exZeroFiles : Nat → List Nat :=
  fun fname => if fname < 3 then [0] else []

/-- A geometry whose three members cover only the page at 1 KB: the page at
address 0 is covered by no image. -/
def exC9geometry : List DiskGeometry :=
  [⟨0, 0, 1, 2⟩, ⟨1, 1, 1, 2⟩, ⟨2, 2, 1, 2⟩]

/-- A concrete data volume for the synthesised-set witnesses: one full
logical stripe (`K = 1`) of an `N = 3`, 1-KB-page array. -/
def exD : List Nat := List.replicate 2048 0

end RaidRec

namespace RaidRec

/-! ### Arithmetic of the parity rotation -/

theorem mod_cycle₁ (N off d : Nat) (hoff : off ≤ N) (hd : d < N) :
    ((d + (N - off)) % N + off) % N = d := by
  rw [Nat.mod_add_mod]
  have h1 : d + (N - off) + off = d + N := by omega
  rw [h1, Nat.add_mod_right, Nat.mod_eq_of_lt hd]

theorem mod_cycle₂ (N off s : Nat) (hoff : off ≤ N) (hs : s < N) :
    ((s + off) % N + (N - off)) % N = s := by
  rw [Nat.mod_add_mod]
  have h1 : s + off + (N - off) = s + N := by omega
  rw [h1, Nat.add_mod_right, Nat.mod_eq_of_lt hs]

/-! ### The closed form of `raid5_stripes` -/

/-- Closed form of the `raid5_stripes` fold: slot `s` holds the data index
`page·(N−1) + (s + page mod N) mod N` unless that residue is `N−1`, in which
case the slot holds the parity marker `-1`. -/
theorem raid5_stripes_eq (N p : Nat) (hN : 1 ≤ N) :
    raid5_stripes N p = (List.range N).map (fun s =>
      if (s + p % N) % N < N - 1
      then ((p * (N - 1) + (s + p % N) % N : Nat) : Int) else -1) := by
  have hoff : p % N < N := Nat.mod_lt _ (by omega)
  have key : ∀ k, k ≤ N - 1 →
      (List.range k).foldl
        (fun stripes disk =>
          stripes.set ((disk + N - p % N) % N) ((disk + p * (N - 1) : Nat) : Int))
        (List.replicate N (-1))
      = (List.range N).map (fun s =>
          if (s + p % N) % N < k
          then ((p * (N - 1) + (s + p % N) % N : Nat) : Int) else -1) := by
    intro k hk
    induction k with
    | zero =>
      rw [List.range_zero, List.foldl_nil]
      refine List.ext_getElem (by simp) ?_
      intro n h1 h2
      simp only [List.getElem_replicate, List.getElem_map, List.getElem_range]
      rw [if_neg (by omega)]
    | succ k ih =>
      rw [List.range_succ, List.foldl_append, ih (by omega), List.foldl_cons, List.foldl_nil]
      refine List.ext_getElem (by simp) ?_
      intro n h1 h2
      have hn : n < N := by simpa using h2
      have hkN : k < N := by omega
      rw [List.getElem_set]
      simp only [List.getElem_map, List.getElem_range]
      by_cases he : (k + N - p % N) % N = n
      · rw [if_pos he]
        have hv : (n + p % N) % N = k := by
          rw [← he]
          have h3 : k + N - p % N = k + (N - p % N) := by omega
          rw [h3]
          exact mod_cycle₁ N (p % N) k (le_of_lt hoff) hkN
        rw [hv, if_pos (Nat.lt_succ_self k)]
        exact congrArg _ (Nat.add_comm _ _)
      · rw [if_neg he]
        have hne : (n + p % N) % N ≠ k := by
          intro hc
          apply he
          have h4 := mod_cycle₂ N (p % N) n (le_of_lt hoff) hn
          rw [hc] at h4
          have h5 : k + N - p % N = k + (N - p % N) := by omega
          rw [h5, h4]
        by_cases hlt : (n + p % N) % N < k
        · rw [if_pos hlt, if_pos (by omega)]
        · rw [if_neg hlt, if_neg (by omega)]
  show (List.range (N - 1)).foldl _ _ = _
  exact key (N - 1) le_rfl

theorem raid5_stripes_length (N p : Nat) (hN : 1 ≤ N) :
    (raid5_stripes N p).length = N := by
  rw [raid5_stripes_eq N p hN]; simp

/-- The slot `N − 1 − page mod N` of the stripe vector holds the parity
marker. -/
theorem raid5_stripes_getD_parity (N p : Nat) (hN : 1 ≤ N) (d : Int) :
    (raid5_stripes N p).getD (N - 1 - p % N) d = -1 := by
  have hoff : p % N < N := Nat.mod_lt _ (by omega)
  have hq : N - 1 - p % N < N := by omega
  rw [raid5_stripes_eq N p hN, List.getD_eq_getElem _ _ (by simpa using hq)]
  simp only [List.getElem_map, List.getElem_range]
  have h1 : N - 1 - p % N + p % N = N - 1 := by omega
  rw [if_neg (by rw [h1, Nat.mod_eq_of_lt (by omega)]; omega)]

/-- Every other slot holds the data index given by the closed form. -/
theorem raid5_stripes_getD_data (N p s : Nat) (hN : 1 ≤ N) (hs : s < N)
    (hne : s ≠ N - 1 - p % N) (d : Int) :
    (raid5_stripes N p).getD s d = ((p * (N - 1) + (s + p % N) % N : Nat) : Int) := by
  have hoff : p % N < N := Nat.mod_lt _ (by omega)
  rw [raid5_stripes_eq N p hN, List.getD_eq_getElem _ _ (by simpa using hs)]
  simp only [List.getElem_map, List.getElem_range]
  have hcond : (s + p % N) % N < N - 1 := by
    have hlt : (s + p % N) % N < N := Nat.mod_lt _ (by omega)
    rcases Nat.lt_or_ge ((s + p % N) % N) (N - 1) with h | h
    · exact h
    · exfalso
      have hEq : (s + p % N) % N = N - 1 := by omega
      have h4 := mod_cycle₂ N (p % N) s (le_of_lt hoff) hs
      rw [hEq] at h4
      apply hne
      have h5 : N - 1 - p % N + p % N = N - 1 := by omega
      have h6 : (N - 1 - p % N + p % N) % N = N - 1 := by
        rw [h5, Nat.mod_eq_of_lt (by omega)]
      have h7 := mod_cycle₂ N (p % N) (N - 1 - p % N) (le_of_lt hoff) (by omega)
      rw [h6] at h7
      rw [← h4, ← h7]
  rw [if_pos hcond]

/-! ### `findIdx` over a split list -/

theorem findIdx_append_of {α : Type} (pr : α → Bool) (l₁ l₂ : List α) (a : α)
    (h₁ : ∀ x ∈ l₁, pr x = false) (ha : pr a = true) :
    (l₁ ++ a :: l₂).findIdx pr = l₁.length := by
  induction l₁ with
  | nil => simp [List.findIdx_cons, ha]
  | cons x xs ih =>
    have hx : pr x = false := h₁ x (by simp)
    have ihx := ih (fun y hy => h₁ y (by simp [hy]))
    simp [List.findIdx_cons, hx, ihx]

theorem range_split (N q : Nat) (hq : q < N) :
    List.range N = List.range q ++ q :: List.range' (q + 1) (N - q - 1) := by
  have h1 : List.range' 0 q ++ List.range' (0 + 1 * q) (N - q) = List.range' 0 (N - q + q) :=
    List.range'_append 0 q (N - q) 1
  have h2 : N - q + q = N := by omega
  have h3 : 0 + 1 * q = q := by omega
  rw [h2, h3] at h1
  have h4 : List.range' q (N - q) = q :: List.range' (q + 1) (N - q - 1) := by
    have h5 : N - q = N - q - 1 + 1 := by omega
    conv_lhs => rw [h5]
    rw [List.range'_succ]
  rw [List.range_eq_range', ← h1, h4, ← List.range_eq_range']

end RaidRec

namespace RaidRec

/-! ### Characterisation of `argsort` on a stripe vector -/

/-- `np.argsort(stripes)[0]` is the parity slot and the rest are the slots of
the data columns in ascending data-index order: slot `(d + N − off) % N` for
`d = 0, …, N−2`. -/
theorem argsort_raid5_stripes (N p : Nat) (hN : 2 ≤ N) :
    argsort (raid5_stripes N p) =
      (N - 1 - p % N) :: (List.range (N - 1)).map (fun d => (d + (N - p % N)) % N) := by
  have hN1 : 1 ≤ N := by omega
  have hNpos : 0 < N := by omega
  have hoff : p % N < N := Nat.mod_lt _ hNpos
  have hlen : (raid5_stripes N p).length = N := raid5_stripes_length N p hN1
  have hq : N - 1 - p % N < N := by omega
  -- facts about the key function i ↦ stripes.getD i 0
  have hkeyq : (raid5_stripes N p).getD (N - 1 - p % N) 0 = -1 :=
    raid5_stripes_getD_parity N p hN1 0
  have hkeydata : ∀ s, s < N → s ≠ N - 1 - p % N →
      (raid5_stripes N p).getD s 0 = ((p * (N - 1) + (s + p % N) % N : Nat) : Int) :=
    fun s hs hne => raid5_stripes_getD_data N p s hN1 hs hne 0
  have hslot_lt : ∀ d : Nat, (d + (N - p % N)) % N < N := fun d => Nat.mod_lt _ hNpos
  have hslot_res : ∀ d, d < N → ((d + (N - p % N)) % N + p % N) % N = d :=
    fun d hd => mod_cycle₁ N (p % N) d (le_of_lt hoff) hd
  have hNres : (N - 1 - p % N + p % N) % N = N - 1 := by
    have h1 : N - 1 - p % N + p % N = N - 1 := by omega
    rw [h1, Nat.mod_eq_of_lt (by omega)]
  have hslot_ne : ∀ d, d < N - 1 → (d + (N - p % N)) % N ≠ N - 1 - p % N := by
    intro d hd hc
    have h1 := hslot_res d (by omega)
    rw [hc, hNres] at h1
    omega
  have hkeyslot : ∀ d, d < N - 1 →
      (raid5_stripes N p).getD ((d + (N - p % N)) % N) 0 = ((p * (N - 1) + d : Nat) : Int) := by
    intro d hd
    rw [hkeydata _ (hslot_lt d) (hslot_ne d hd), hslot_res d (by omega)]
  -- injectivity of the key on [0, N)
  have hkeyinj : ∀ i j, i < N → j < N →
      (raid5_stripes N p).getD i 0 = (raid5_stripes N p).getD j 0 → i = j := by
    intro i j hi hj hij
    by_cases hiq : i = N - 1 - p % N <;> by_cases hjq : j = N - 1 - p % N
    · rw [hiq, hjq]
    · exfalso
      rw [hiq, hkeyq, hkeydata j hj hjq] at hij
      have h0 : (0 : ℤ) ≤ ((p * (N - 1) + (j + p % N) % N : Nat) : Int) :=
        Int.natCast_nonneg _
      rw [← hij] at h0
      norm_num at h0
    · exfalso
      rw [hjq, hkeyq, hkeydata i hi hiq] at hij
      have h0 : (0 : ℤ) ≤ ((p * (N - 1) + (i + p % N) % N : Nat) : Int) :=
        Int.natCast_nonneg _
      rw [hij] at h0
      norm_num at h0
    · rw [hkeydata i hi hiq, hkeydata j hj hjq] at hij
      have h1 : (i + p % N) % N = (j + p % N) % N := by
        have h2 : p * (N - 1) + (i + p % N) % N = p * (N - 1) + (j + p % N) % N := by
          exact_mod_cast hij
        omega
      have h3 := mod_cycle₂ N (p % N) i (le_of_lt hoff) hi
      have h4 := mod_cycle₂ N (p % N) j (le_of_lt hoff) hj
      rw [h1] at h3
      exact h3.symm.trans h4
  -- the sorting relation
  haveI instTot : IsTotal Nat (fun i j =>
      (raid5_stripes N p).getD i 0 ≤ (raid5_stripes N p).getD j 0) :=
    ⟨fun a b => le_total _ _⟩
  haveI instTr : IsTrans Nat (fun i j =>
      (raid5_stripes N p).getD i 0 ≤ (raid5_stripes N p).getD j 0) :=
    ⟨fun a b c hab hbc => le_trans hab hbc⟩
  have hsorted : List.Sorted (fun i j =>
      (raid5_stripes N p).getD i 0 ≤ (raid5_stripes N p).getD j 0)
      (argsort (raid5_stripes N p)) :=
    List.sorted_insertionSort _ _
  have hperm : (argsort (raid5_stripes N p)).Perm (List.range N) := by
    unfold argsort
    rw [hlen]
    exact List.perm_insertionSort _ _
  have hmemM : ∀ x ∈ argsort (raid5_stripes N p), x < N :=
    fun x hx => List.mem_range.1 (hperm.subset hx)
  have hMnodup : (argsort (raid5_stripes N p)).Nodup :=
    hperm.symm.nodup (List.nodup_range N)
  -- the target list is a permutation of range N
  have hTnodup : ((N - 1 - p % N) ::
      (List.range (N - 1)).map (fun d => (d + (N - p % N)) % N)).Nodup := by
    rw [List.nodup_cons]
    constructor
    · intro hmem
      obtain ⟨d, hd, hds⟩ := List.mem_map.1 hmem
      exact hslot_ne d (List.mem_range.1 hd) hds
    · refine List.Nodup.map_on ?_ (List.nodup_range _)
      intro x hx y hy hxy
      have h1 := hslot_res x (by have := List.mem_range.1 hx; omega)
      have h2 := hslot_res y (by have := List.mem_range.1 hy; omega)
      rw [hxy] at h1
      exact h1.symm.trans h2
  have hTperm : ((N - 1 - p % N) ::
      (List.range (N - 1)).map (fun d => (d + (N - p % N)) % N)).Perm (List.range N) := by
    refine (List.Nodup.subperm hTnodup ?_).perm_of_length_le (by simp; omega)
    intro x hx
    rw [List.mem_range]
    rcases List.mem_cons.1 hx with h | h
    · omega
    · obtain ⟨d, _, rfl⟩ := List.mem_map.1 h
      exact hslot_lt d
  -- both lists are strictly sorted by the key
  have hTsorted : List.Pairwise (fun i j =>
      (raid5_stripes N p).getD i 0 < (raid5_stripes N p).getD j 0)
      ((N - 1 - p % N) :: (List.range (N - 1)).map (fun d => (d + (N - p % N)) % N)) := by
    refine List.pairwise_cons.2 ⟨?_, ?_⟩
    · intro b hb
      obtain ⟨d, hd, rfl⟩ := List.mem_map.1 hb
      rw [hkeyq, hkeyslot d (List.mem_range.1 hd)]
      exact lt_of_lt_of_le (by norm_num) (Int.natCast_nonneg _)
    · rw [List.pairwise_map]
      refine List.Pairwise.imp_of_mem ?_ (List.pairwise_lt_range (N - 1))
      intro a b ha hb hab
      rw [hkeyslot a (List.mem_range.1 ha), hkeyslot b (List.mem_range.1 hb)]
      have h5 : p * (N - 1) + a < p * (N - 1) + b := Nat.add_lt_add_left hab _
      exact_mod_cast h5
  have hMsorted : List.Pairwise (fun i j =>
      (raid5_stripes N p).getD i 0 < (raid5_stripes N p).getD j 0)
      (argsort (raid5_stripes N p)) := by
    have h2 : List.Pairwise (fun i j : Nat => i ≠ j) (argsort (raid5_stripes N p)) := hMnodup
    refine List.Pairwise.imp_of_mem ?_ (List.Pairwise.and hsorted h2)
    intro a b ha hb hand
    exact lt_of_le_of_ne hand.1
      (fun hc => hand.2 (hkeyinj a b (hmemM a ha) (hmemM b hb) hc))
  haveI : IsAntisymm Nat (fun i j =>
      (raid5_stripes N p).getD i 0 < (raid5_stripes N p).getD j 0) :=
    ⟨fun a b h1 h2 => absurd (lt_trans h1 h2) (lt_irrefl _)⟩
  exact List.eq_of_perm_of_sorted (hperm.trans hTperm.symm) hMsorted hTsorted

end RaidRec

namespace RaidRec

/-! ### XOR algebra on byte buffers -/

theorem pageXor_comm : ∀ a b : List Nat, pageXor a b = pageXor b a := by
  intro a
  induction a with
  | nil => intro b; cases b <;> simp [pageXor]
  | cons x xs ih =>
    intro b
    cases b with
    | nil => simp [pageXor]
    | cons y ys =>
      simp only [pageXor, List.zipWith_cons_cons]
      exact congrArg₂ List.cons (Nat.xor_comm x y) (ih ys)

theorem pageXor_assoc : ∀ a b c : List Nat,
    pageXor (pageXor a b) c = pageXor a (pageXor b c) := by
  intro a
  induction a with
  | nil => intro b c; simp [pageXor]
  | cons x xs ih =>
    intro b c
    cases b with
    | nil => simp [pageXor]
    | cons y ys =>
      cases c with
      | nil => simp [pageXor]
      | cons z zs =>
        simp only [pageXor, List.zipWith_cons_cons]
        exact congrArg₂ List.cons (Nat.xor_assoc x y z) (ih ys zs)

instance : RightCommutative pageXor :=
  ⟨fun b a₁ a₂ => by
    rw [pageXor_assoc, pageXor_assoc, pageXor_comm a₁ a₂]⟩

theorem pageXor_self : ∀ a : List Nat, pageXor a a = List.replicate a.length 0 := by
  intro a
  induction a with
  | nil => simp [pageXor]
  | cons x xs ih =>
    simp only [pageXor, List.zipWith_cons_cons, List.length_cons, List.replicate_succ]
    exact congrArg₂ List.cons (Nat.xor_self x) ih

theorem pageXor_zero_left : ∀ a : List Nat, pageXor (List.replicate a.length 0) a = a := by
  intro a
  induction a with
  | nil => simp [pageXor]
  | cons x xs ih =>
    simp only [List.length_cons, List.replicate_succ, pageXor, List.zipWith_cons_cons]
    exact congrArg₂ List.cons (Nat.zero_xor x) ih

theorem pageXor_zero_right (a : List Nat) :
    pageXor a (List.replicate a.length 0) = a := by
  rw [pageXor_comm]
  exact pageXor_zero_left a

theorem pageXor_zero_left_of_length (a : List Nat) (n : Nat) (h : a.length = n) :
    pageXor (List.replicate n 0) a = a := by
  rw [← h]
  exact pageXor_zero_left a

theorem foldl_pageXor_length :
    ∀ (l : List (List Nat)) (x : List Nat), (∀ a ∈ l, a.length = x.length) →
      (l.foldl pageXor x).length = x.length := by
  intro l
  induction l with
  | nil => intro x _; rfl
  | cons a l ih =>
    intro x h
    rw [List.foldl_cons]
    have hxa : (pageXor x a).length = x.length := by
      show (List.zipWith Nat.xor x a).length = x.length
      rw [List.length_zipWith, h a (by simp)]
      exact min_self _
    rw [ih (pageXor x a) (fun b hb => by rw [h b (by simp [hb]), hxa]), hxa]

theorem foldl_pageXor_pull :
    ∀ (l : List (List Nat)) (x y : List Nat),
      l.foldl pageXor (pageXor x y) = pageXor x (l.foldl pageXor y) := by
  intro l
  induction l with
  | nil => intro x y; rfl
  | cons a l ih =>
    intro x y
    rw [List.foldl_cons, List.foldl_cons, pageXor_assoc]
    exact ih x (pageXor y a)

/-- If `vs` is a permutation of a parity page together with the pages it is
the XOR of (all of length `P`), then `parity_check vs` succeeds. -/
theorem parity_check_of_perm (P : Nat) (vs ds : List (List Nat))
    (hds : ds ≠ []) (hlds : ∀ a ∈ ds, a.length = P)
    (hperm : vs.Perm (xorFoldList ds :: ds)) :
    parity_check vs = true := by
  have hparlen : (xorFoldList ds).length = P := by
    cases ds with
    | nil => exact absurd rfl hds
    | cons d dt =>
      show (dt.foldl pageXor d).length = P
      rw [foldl_pageXor_length dt d
        (fun a ha => by rw [hlds a (by simp [ha]), hlds d (by simp)])]
      exact hlds d (by simp)
  have hlvs : ∀ a ∈ vs, a.length = P := by
    intro a ha
    rcases List.mem_cons.1 (hperm.subset ha) with h | h
    · rw [h]; exact hparlen
    · exact hlds a h
  have hlen_vs : vs.length = ds.length + 1 := by
    rw [hperm.length_eq]; simp
  cases vs with
  | nil => simp at hlen_vs
  | cons v0 vt =>
    cases vt with
    | nil =>
      exfalso
      have h0 : ds.length = 0 := by simpa using hlen_vs.symm
      exact hds (List.length_eq_zero.1 h0)
    | cons v1 rest =>
      show (v0 == rest.foldl pageXor v1) = true
      rw [beq_iff_eq]
      have hZfold : ∀ (w : List Nat) (l : List (List Nat)), w.length = P →
          (w :: l).foldl pageXor (List.replicate P 0) = l.foldl pageXor w := by
        intro w l hw
        rw [List.foldl_cons]
        have h1 : pageXor (List.replicate P 0) w = w := by
          rw [← hw]; exact pageXor_zero_left w
        rw [h1]
      have hT1 : ((v0 :: v1 :: rest).foldl pageXor (List.replicate P 0))
          = pageXor v0 ((v1 :: rest).foldl pageXor (List.replicate P 0)) := by
        rw [List.foldl_cons, pageXor_comm (List.replicate P 0) v0]
        exact foldl_pageXor_pull _ v0 _
      have hT2 : (xorFoldList ds :: ds).foldl pageXor (List.replicate P 0)
          = List.replicate P 0 := by
        rw [hZfold (xorFoldList ds) ds hparlen]
        cases ds with
        | nil => exact absurd rfl hds
        | cons d dt =>
          show (d :: dt).foldl pageXor (dt.foldl pageXor d) = _
          rw [List.foldl_cons,
            foldl_pageXor_pull dt (dt.foldl pageXor d) d,
            pageXor_self]
          rw [foldl_pageXor_length dt d
            (fun a ha => by rw [hlds a (by simp [ha]), hlds d (by simp)]),
            hlds d (by simp)]
      have hTv : pageXor v0 ((v1 :: rest).foldl pageXor (List.replicate P 0))
          = List.replicate P 0 := by
        rw [← hT1]
        exact (List.Perm.foldl_eq hperm (List.replicate P 0)).trans hT2
      have hwlen : ((v1 :: rest).foldl pageXor (List.replicate P 0)).length = P := by
        rw [foldl_pageXor_length (v1 :: rest) (List.replicate P 0)
          (fun a ha => by
            rw [hlvs a (List.mem_cons_of_mem v0 ha)]
            simp)]
        simp
      have hv0len : v0.length = P := hlvs v0 (by simp)
      have hfinal : v0 = (v1 :: rest).foldl pageXor (List.replicate P 0) := by
        have h3 : pageXor v0 (pageXor v0 ((v1 :: rest).foldl pageXor (List.replicate P 0)))
            = (v1 :: rest).foldl pageXor (List.replicate P 0) := by
          rw [← pageXor_assoc, pageXor_self, hv0len]
          exact pageXor_zero_left_of_length _ P hwlen
        rw [hTv] at h3
        rw [← h3, ← hv0len]
        exact (pageXor_zero_right v0).symm
      rw [hZfold v1 rest (hlvs v1 (by simp))] at hfinal
      exact hfinal

end RaidRec

namespace RaidRec

/-! ### Pages of the synthesised image set -/

theorem stripe_residue_lt (N p s : Nat) (hN : 1 ≤ N) (hs : s < N)
    (hne : s ≠ N - 1 - p % N) : (s + p % N) % N < N - 1 := by
  have hoff : p % N < N := Nat.mod_lt _ (by omega)
  have hlt : (s + p % N) % N < N := Nat.mod_lt _ (by omega)
  rcases Nat.lt_or_ge ((s + p % N) % N) (N - 1) with h | h
  · exact h
  · exfalso
    have hEq : (s + p % N) % N = N - 1 := by omega
    have h4 := mod_cycle₂ N (p % N) s (le_of_lt hoff) hs
    rw [hEq] at h4
    have h6 : (N - 1 - p % N + p % N) % N = N - 1 := by
      have h5 : N - 1 - p % N + p % N = N - 1 := by omega
      rw [h5, Nat.mod_eq_of_lt (by omega)]
    have h7 := mod_cycle₂ N (p % N) (N - 1 - p % N) (le_of_lt hoff) (by omega)
    rw [h6] at h7
    exact hne (h4.symm.trans h7)

theorem memberPage_parity (D : List Nat) (N pszKB p : Nat) (hN : 1 ≤ N) :
    memberPage D N pszKB (N - 1 - p % N) p = parityPage D N pszKB p := by
  simp only [memberPage]
  rw [raid5_stripes_getD_parity N p hN]
  norm_num

theorem memberPage_data (D : List Nat) (N pszKB p s : Nat) (hN : 1 ≤ N) (hs : s < N)
    (hne : s ≠ N - 1 - p % N) :
    memberPage D N pszKB s p = dataPage D pszKB (p * (N - 1) + (s + p % N) % N) := by
  simp only [memberPage]
  rw [raid5_stripes_getD_data N p s hN hs hne]
  rw [if_neg (not_lt.2 (Int.natCast_nonneg _))]
  rw [Int.toNat_ofNat]

theorem dataPage_length (D : List Nat) (pszKB i : Nat)
    (h : (i + 1) * (pszKB * 1024) ≤ D.length) :
    (dataPage D pszKB i).length = pszKB * 1024 := by
  simp only [dataPage, List.length_take, List.length_drop]
  have h2 : (i + 1) * (pszKB * 1024) = i * (pszKB * 1024) + pszKB * 1024 := by ring
  omega

theorem dataPage_len_in_stripe (D : List Nat) (N pszKB p d : Nat) (hd : d < N - 1)
    (hcov : (p + 1) * (pszKB * 1024 * (N - 1)) ≤ D.length) :
    (dataPage D pszKB (p * (N - 1) + d)).length = pszKB * 1024 := by
  apply dataPage_length
  have h1 : p * (N - 1) + d + 1 ≤ (p + 1) * (N - 1) := by
    have h2 : (p + 1) * (N - 1) = p * (N - 1) + (N - 1) := by ring
    omega
  calc (p * (N - 1) + d + 1) * (pszKB * 1024)
      ≤ (p + 1) * (N - 1) * (pszKB * 1024) := Nat.mul_le_mul_right _ h1
    _ = (p + 1) * (pszKB * 1024 * (N - 1)) := by ring
    _ ≤ D.length := hcov

theorem parityPage_length (D : List Nat) (N pszKB p : Nat) (hN : 2 ≤ N)
    (hcov : (p + 1) * (pszKB * 1024 * (N - 1)) ≤ D.length) :
    (parityPage D N pszKB p).length = pszKB * 1024 := by
  have hx : ∀ (a : List Nat) (l : List (List Nat)), xorFoldList (a :: l) = l.foldl pageXor a :=
    fun a l => rfl
  have hsplit : List.range (N - 1) = 0 :: List.range' 1 (N - 2) := by
    rw [List.range_eq_range']
    conv_lhs => rw [show N - 1 = (N - 2) + 1 from by omega]
    rw [List.range'_succ]
  simp only [parityPage, hsplit, List.map_cons, hx]
  rw [foldl_pageXor_length]
  · exact dataPage_len_in_stripe D N pszKB p 0 (by omega) hcov
  · intro a ha
    obtain ⟨d, hd, rfl⟩ := List.mem_map.1 ha
    obtain ⟨i, hi, rfl⟩ := List.mem_range'.1 hd
    rw [dataPage_len_in_stripe D N pszKB p (1 + 1 * i) (by omega) hcov,
      dataPage_len_in_stripe D N pszKB p 0 (by omega) hcov]

theorem memberPage_length (D : List Nat) (N pszKB K m p : Nat) (hN : 2 ≤ N)
    (hm : m < N) (hp : p < K) (hD : D.length = K * stripeSize pszKB N) :
    (memberPage D N pszKB m p).length = pszKB * 1024 := by
  have hcov : (p + 1) * (pszKB * 1024 * (N - 1)) ≤ D.length := by
    rw [hD]
    show (p + 1) * (pszKB * 1024 * (N - 1)) ≤ K * (pszKB * 1024 * (N - 1))
    exact Nat.mul_le_mul_right _ (by omega)
  by_cases hq : m = N - 1 - p % N
  · rw [hq, memberPage_parity D N pszKB p (by omega)]
    exact parityPage_length D N pszKB p hN hcov
  · rw [memberPage_data D N pszKB p m (by omega) hm hq]
    exact dataPage_len_in_stripe D N pszKB p _
      (stripe_residue_lt N p m (by omega) hm hq) hcov

/-- Reading page `j` of a concatenation of `P`-sized pages returns the `j`-th
page. -/
theorem read_page_flatten (ls : List (List Nat)) (P : Nat) :
    ∀ j, (∀ x ∈ ls, x.length = P) → j < ls.length →
      read_page ls.flatten P j = ls.getD j [] := by
  induction ls with
  | nil => intro j _ hj; simp at hj
  | cons a ls ih =>
    intro j hlen hj
    cases j with
    | zero =>
      simp only [read_page, Nat.zero_mul, List.drop_zero, List.flatten_cons,
        List.getD_cons_zero]
      rw [← hlen a (by simp)]
      exact List.take_left a _
    | succ j =>
      simp only [read_page, List.flatten_cons, List.getD_cons_succ]
      have h1 : (j + 1) * P = a.length + j * P := by
        rw [hlen a (by simp)]; ring
      rw [h1, List.drop_append]
      exact ih j (fun x hx => hlen x (by simp [hx])) (by simpa using hj)

theorem read_page_memberFile (D : List Nat) (N pszKB K m p : Nat) (hN : 2 ≤ N)
    (hm : m < N) (hp : p < K) (hD : D.length = K * stripeSize pszKB N) :
    read_page (memberFile D N pszKB K m) (pszKB * 1024) p = memberPage D N pszKB m p := by
  show read_page ((List.range K).map
    (fun page => memberPage D N pszKB m page)).flatten (pszKB * 1024) p = _
  rw [read_page_flatten _ _ p
    (fun x hx => by
      obtain ⟨page, hpage, rfl⟩ := List.mem_map.1 hx
      exact memberPage_length D N pszKB K m page hN hm (List.mem_range.1 hpage) hD)
    (by simpa using hp)]
  rw [List.getD_eq_getElem _ _ (by simpa using hp)]
  rw [List.getElem_map, List.getElem_range]

/-- Concatenating `n` consecutive data pages starting at index `i` yields the
corresponding contiguous slice of `D`. -/
theorem flatten_dataPages (D : List Nat) (pszKB : Nat) :
    ∀ (n i : Nat), ((List.range n).map (fun d => dataPage D pszKB (i + d))).flatten
      = (D.drop (i * (pszKB * 1024))).take (n * (pszKB * 1024)) := by
  intro n
  induction n with
  | zero => intro i; simp
  | succ n ih =>
    intro i
    rw [List.range_succ, List.map_append, List.flatten_append]
    simp only [List.map_cons, List.map_nil, List.flatten_cons, List.flatten_nil,
      List.append_nil]
    rw [ih i, Nat.succ_mul, List.take_add]
    congr 1
    rw [List.drop_drop]
    show dataPage D pszKB (i + n) = _
    simp only [dataPage]
    congr 2
    ring

end RaidRec

namespace RaidRec

/-- The member pages of one stripe are a permutation of the parity page
followed by the stripe's data pages in ascending order. -/
theorem stripe_members_perm (D : List Nat) (N pszKB p : Nat) (hN : 2 ≤ N) :
    ((List.range N).map (fun m => memberPage D N pszKB m p)).Perm
      (parityPage D N pszKB p ::
        (List.range (N - 1)).map (fun d => dataPage D pszKB (p * (N - 1) + d))) := by
  have hoff : p % N < N := Nat.mod_lt _ (by omega)
  have hq : N - 1 - p % N < N := by omega
  rw [range_split N (N - 1 - p % N) hq]
  simp only [List.map_append, List.map_cons]
  rw [memberPage_parity D N pszKB p (by omega)]
  have hA : (List.range (N - 1 - p % N)).map (fun m => memberPage D N pszKB m p)
      = (List.range' (p % N) (N - 1 - p % N)).map
          (fun d => dataPage D pszKB (p * (N - 1) + d)) := by
    rw [List.range'_eq_map_range, List.map_map]
    apply List.map_congr_left
    intro s hs
    have hs' := List.mem_range.1 hs
    show memberPage D N pszKB s p = dataPage D pszKB (p * (N - 1) + (p % N + s))
    rw [memberPage_data D N pszKB p s (by omega) (by omega) (by omega)]
    rw [Nat.mod_eq_of_lt (show s + p % N < N by omega)]
    congr 1
    omega
  have hB : (List.range' (N - 1 - p % N + 1) (N - (N - 1 - p % N) - 1)).map
        (fun m => memberPage D N pszKB m p)
      = (List.range (p % N)).map (fun d => dataPage D pszKB (p * (N - 1) + d)) := by
    have hlen : N - (N - 1 - p % N) - 1 = p % N := by omega
    rw [hlen, List.range'_eq_map_range, List.map_map]
    apply List.map_congr_left
    intro j hj
    have hj' := List.mem_range.1 hj
    show memberPage D N pszKB (N - 1 - p % N + 1 + j) p
        = dataPage D pszKB (p * (N - 1) + j)
    rw [memberPage_data D N pszKB p (N - 1 - p % N + 1 + j) (by omega) (by omega) (by omega)]
    congr 1
    have h1 : N - 1 - p % N + 1 + j + p % N = N + j := by omega
    rw [h1, Nat.add_mod_left, Nat.mod_eq_of_lt (by omega)]
  rw [hA, hB]
  refine List.Perm.trans List.perm_middle ?_
  refine List.Perm.cons _ ?_
  have hsplit : (List.range (N - 1)).map (fun d => dataPage D pszKB (p * (N - 1) + d))
      = (List.range (p % N)).map (fun d => dataPage D pszKB (p * (N - 1) + d))
        ++ (List.range' (p % N) (N - 1 - p % N)).map
            (fun d => dataPage D pszKB (p * (N - 1) + d)) := by
    rw [← List.map_append]
    congr 1
    have h1 := List.range'_append 0 (p % N) (N - 1 - p % N) 1
    have h2 : 0 + 1 * (p % N) = p % N := by omega
    have h3 : N - 1 - p % N + p % N = N - 1 := by omega
    rw [h2, h3] at h1
    rw [List.range_eq_range', ← h1, ← List.range_eq_range']
  rw [hsplit]
  exact List.perm_append_comm

/-- On a synthesised stripe whose data lies inside `D`, `parity_check` of the
member pages (in column order) succeeds. -/
theorem stripe_parity_ok (D : List Nat) (N pszKB p : Nat) (hN : 2 ≤ N)
    (hcov : (p + 1) * (pszKB * 1024 * (N - 1)) ≤ D.length) :
    parity_check ((List.range N).map (fun m => memberPage D N pszKB m p)) = true := by
  apply parity_check_of_perm (pszKB * 1024) _
    ((List.range (N - 1)).map (fun d => dataPage D pszKB (p * (N - 1) + d)))
  · intro hc
    have h0 := congrArg List.length hc
    simp at h0
    omega
  · intro a ha
    obtain ⟨d, hd, rfl⟩ := List.mem_map.1 ha
    exact dataPage_len_in_stripe D N pszKB p d (List.mem_range.1 hd) hcov
  · have hpar : parityPage D N pszKB p
        = xorFoldList ((List.range (N - 1)).map
            (fun d => dataPage D pszKB (p * (N - 1) + d))) := rfl
    rw [← hpar]
    exact stripe_members_perm D N pszKB p hN

end RaidRec

namespace RaidRec

/-! ### Evaluating the slot reads on the synthesised set -/

theorem foldl_append_eq_flatten {α : Type} (l : List α) (h : α → List Nat) :
    ∀ init : List Nat,
      l.foldl (fun acc d => acc ++ h d) init = init ++ (l.map h).flatten := by
  induction l with
  | nil => intro init; simp
  | cons a l ih =>
    intro init
    simp only [List.foldl_cons, List.map_cons, List.flatten_cons]
    rw [ih, List.append_assoc]

theorem range_filter_beq : ∀ (n s : Nat), s < n →
    (List.range n).filter (fun m => m == s) = [s] := by
  intro n
  induction n with
  | zero => intro s hs; omega
  | succ n ih =>
    intro s hs
    rw [List.range_succ, List.filter_append]
    by_cases h : s < n
    · rw [ih s h]
      have h1 : (n == s) = false := beq_eq_false_iff_ne.2 (by omega)
      simp [List.filter_cons, h1]
    · have hsn : s = n := by omega
      subst hsn
      have h1 : (List.range s).filter (fun m => m == s) = [] := by
        refine List.filter_eq_nil_iff.2 ?_
        intro a ha
        have h2 := List.mem_range.1 ha
        simp only [beq_iff_eq]
        omega
      rw [h1]
      simp [List.filter_cons]

/-- On the synthesised geometry, the `for image in geometry` scan for slot `s`
of page `p` returns exactly member `s`'s page `p`. -/
theorem readStripeSlot_synth (D : List Nat) (N pszKB K s p : Nat) (hN : 2 ≤ N)
    (hP : 1 ≤ pszKB) (hs : s < N) (hp : p < K) (hD : D.length = K * stripeSize pszKB N) :
    readStripeSlot (synthGeometry N pszKB K) (memberFile D N pszKB K)
      pszKB (p * pszKB) s = memberPage D N pszKB s p := by
  have hfilter : (synthGeometry N pszKB K).filter (fun image =>
      image.raid_index == s && decide (image.startKB ≤ p * pszKB)
        && decide (p * pszKB < image.endKB))
      = [⟨s, s, 0, K * pszKB⟩] := by
    show ((List.range N).map
      (fun m => (⟨m, m, 0, K * pszKB⟩ : DiskGeometry))).filter _ = _
    rw [List.filter_map]
    have hpred : ((fun image : DiskGeometry =>
        image.raid_index == s && decide (image.startKB ≤ p * pszKB)
          && decide (p * pszKB < image.endKB))
        ∘ (fun m => (⟨m, m, 0, K * pszKB⟩ : DiskGeometry)))
        = fun m => m == s := by
      funext m
      simp only [Function.comp_apply]
      have h1 : decide ((0 : Nat) ≤ p * pszKB) = true := by simp
      have h2 : decide (p * pszKB < K * pszKB) = true := by
        simp only [decide_eq_true_eq]
        exact (Nat.mul_lt_mul_right (by omega)).2 hp
      rw [h1, h2, Bool.and_true, Bool.and_true]
    rw [hpred, range_filter_beq N s hs, List.map_cons, List.map_nil]
  show ((synthGeometry N pszKB K).filter _).foldl _ [] = _
  rw [hfilter]
  simp only [List.foldl_cons, List.foldl_nil, List.nil_append]
  show ((memberFile D N pszKB K s).drop ((p * pszKB - 0) * 1024)).take (pszKB * 1024) = _
  rw [show (p * pszKB - 0) * 1024 = p * (pszKB * 1024) from by rw [Nat.sub_zero]; ring]
  exact read_page_memberFile D N pszKB K s p hN hs hp hD

/-- Assembling the non-parity slot reads of page `p` (in argsort order) yields
the logical stripe `D[p·S : (p+1)·S]`. -/
theorem stripe_read_synth (D : List Nat) (N pszKB K p : Nat) (hN : 2 ≤ N)
    (hP : 1 ≤ pszKB) (hp : p < K) (hD : D.length = K * stripeSize pszKB N) :
    ((argsort (raid5_stripes N p)).drop 1).foldl
      (fun acc raid_idx =>
        acc ++ readStripeSlot (synthGeometry N pszKB K) (memberFile D N pszKB K)
          pszKB (p * pszKB) raid_idx) []
    = (D.drop (p * stripeSize pszKB N)).take (stripeSize pszKB N) := by
  rw [argsort_raid5_stripes N p hN]
  simp only [List.drop_succ_cons, List.drop_zero]
  rw [foldl_append_eq_flatten, List.nil_append, List.map_map]
  simp only [Function.comp_def]
  have hpt : ∀ d ∈ List.range (N - 1),
      readStripeSlot (synthGeometry N pszKB K) (memberFile D N pszKB K) pszKB (p * pszKB)
        ((d + (N - p % N)) % N)
      = dataPage D pszKB (p * (N - 1) + d) := by
    intro d hd
    have hd' := List.mem_range.1 hd
    have hoff : p % N < N := Nat.mod_lt _ (by omega)
    have hslt : (d + (N - p % N)) % N < N := Nat.mod_lt _ (by omega)
    rw [readStripeSlot_synth D N pszKB K _ p hN hP hslt hp hD]
    have hne : (d + (N - p % N)) % N ≠ N - 1 - p % N := by
      intro hc
      have h1 := mod_cycle₁ N (p % N) d (le_of_lt hoff) (by omega)
      rw [hc] at h1
      have h2 : N - 1 - p % N + p % N = N - 1 := by omega
      rw [h2, Nat.mod_eq_of_lt (by omega)] at h1
      omega
    rw [memberPage_data D N pszKB p _ (by omega) hslt hne]
    rw [mod_cycle₁ N (p % N) d (le_of_lt hoff) (by omega)]
  rw [List.map_congr_left hpt]
  rw [flatten_dataPages D pszKB (N - 1) (p * (N - 1))]
  simp only [stripeSize]
  rw [show p * (N - 1) * (pszKB * 1024) = p * (pszKB * 1024 * (N - 1)) from by ring,
    show (N - 1) * (pszKB * 1024) = pszKB * 1024 * (N - 1) from by ring]

end RaidRec

namespace RaidRec

/-- One unfolding step of `preadLoop` with the assembled page and the computed
`mylen` abstracted. -/
theorem preadLoop_cons_eq (geometry : List DiskGeometry) (files : Nat → List Nat)
    (pszKB ndisks page : Nat) (rest : List Nat) (buf : List Nat) (pos mod_page : Nat)
    (MB : List Nat)
    (hMB : (((argsort (raid5_stripes ndisks page)).drop 1).foldl
        (fun acc raid_idx =>
          acc ++ readStripeSlot geometry files pszKB (page * pszKB) raid_idx)
        []).drop mod_page = MB)
    (ml : Nat)
    (hml : (if pos + MB.length > buf.length then buf.length - pos else MB.length) = ml) :
    preadLoop geometry files pszKB ndisks (page :: rest) buf pos mod_page
    = if ml = 0 then buf
      else preadLoop geometry files pszKB ndisks rest
        (buf.take pos ++ MB.take ml ++ buf.drop (pos + ml)) (pos + ml) 0 := by
  subst hMB
  subst hml
  rfl

/-- Main loop invariant of `pread` on the synthesised set: with the prefix `A`
already written and `R` still to fill, processing the consecutive pages
`p, …, p+m−1` (head-trimmed by `mod` on the first) fills `R` with
`D[p·S + mod : p·S + mod + |R|]`. -/
theorem preadLoop_synth (D : List Nat) (N pszKB K : Nat) (hN : 3 ≤ N) (hP : 1 ≤ pszKB)
    (hD : D.length = K * stripeSize pszKB N) :
    ∀ (m p mod : Nat) (A R : List Nat), mod < stripeSize pszKB N →
      R.length + mod ≤ m * stripeSize pszKB N →
      p * stripeSize pszKB N + (R.length + mod) ≤ K * stripeSize pszKB N →
      preadLoop (synthGeometry N pszKB K) (memberFile D N pszKB K) pszKB N
        (List.range' p m) (A ++ R) A.length mod
      = A ++ (D.drop (p * stripeSize pszKB N + mod)).take R.length := by
  have hS : 0 < stripeSize pszKB N := by
    simp only [stripeSize]
    exact Nat.mul_pos (Nat.mul_pos (by omega) (by omega)) (by omega)
  intro m
  induction m with
  | zero =>
    intro p mod A R hmod h2 h3
    rw [Nat.zero_mul] at h2
    have hR : R = [] := List.length_eq_zero.1 (by omega)
    subst hR
    rw [List.range'_zero]
    show A ++ [] = _
    simp
  | succ m ih =>
    intro p mod A R hmod h2 h3
    rw [List.range'_succ]
    by_cases hR : R.length = 0
    · have hR0 : R = [] := List.length_eq_zero.1 hR
      subst hR0
      rw [preadLoop_cons_eq _ _ _ _ _ _ _ _ _ _ rfl 0
        (by simp only [List.append_nil]; split <;> omega)]
      rw [if_pos rfl]
      simp
    · have hRpos : 0 < R.length := Nat.pos_of_ne_zero hR
      have hpK : p < K := by
        by_contra hpK
        push_neg at hpK
        have h4 : K * stripeSize pszKB N ≤ p * stripeSize pszKB N :=
          Nat.mul_le_mul_right _ hpK
        omega
      have hp1 : (p + 1) * stripeSize pszKB N
          = p * stripeSize pszKB N + stripeSize pszKB N := by ring
      have hp1le : (p + 1) * stripeSize pszKB N ≤ K * stripeSize pszKB N :=
        Nat.mul_le_mul_right _ (by omega)
      have hMB : (((argsort (raid5_stripes N p)).drop 1).foldl
          (fun acc raid_idx =>
            acc ++ readStripeSlot (synthGeometry N pszKB K) (memberFile D N pszKB K)
              pszKB (p * pszKB) raid_idx) []).drop mod
          = (D.drop (p * stripeSize pszKB N + mod)).take (stripeSize pszKB N - mod) := by
        rw [stripe_read_synth D N pszKB K p (by omega) hP hpK hD]
        rw [List.drop_take, List.drop_drop]
      have hMBlen : ((D.drop (p * stripeSize pszKB N + mod)).take
          (stripeSize pszKB N - mod)).length = stripeSize pszKB N - mod := by
        rw [List.length_take, List.length_drop]
        omega
      have hml : (if A.length + ((D.drop (p * stripeSize pszKB N + mod)).take
            (stripeSize pszKB N - mod)).length > (A ++ R).length
          then (A ++ R).length - A.length
          else ((D.drop (p * stripeSize pszKB N + mod)).take
            (stripeSize pszKB N - mod)).length)
          = min (stripeSize pszKB N - mod) R.length := by
        rw [hMBlen, List.length_append]
        split <;> omega
      rw [preadLoop_cons_eq (synthGeometry N pszKB K) (memberFile D N pszKB K) pszKB N p
        (List.range' (p + 1) m) (A ++ R) A.length mod
        ((D.drop (p * stripeSize pszKB N + mod)).take (stripeSize pszKB N - mod)) hMB
        (min (stripeSize pszKB N - mod) R.length) hml]
      rw [if_neg (by omega)]
      rw [List.take_left, List.drop_append, List.take_take,
        min_eq_left (min_le_left _ _)]
      have hXlen : ((D.drop (p * stripeSize pszKB N + mod)).take
          (min (stripeSize pszKB N - mod) R.length)).length
          = min (stripeSize pszKB N - mod) R.length := by
        rw [List.length_take, List.length_drop]
        omega
      have hpos : A.length + min (stripeSize pszKB N - mod) R.length
          = (A ++ (D.drop (p * stripeSize pszKB N + mod)).take
              (min (stripeSize pszKB N - mod) R.length)).length := by
        rw [List.length_append, hXlen]
      rw [hpos]
      have hdl : (R.drop (min (stripeSize pszKB N - mod) R.length)).length
          = R.length - min (stripeSize pszKB N - mod) R.length := List.length_drop _ _
      have h2' : (R.drop (min (stripeSize pszKB N - mod) R.length)).length + 0
          ≤ m * stripeSize pszKB N := by
        rw [hdl]
        have h6 : (m + 1) * stripeSize pszKB N
            = m * stripeSize pszKB N + stripeSize pszKB N := by ring
        omega
      have h3' : (p + 1) * stripeSize pszKB N
          + ((R.drop (min (stripeSize pszKB N - mod) R.length)).length + 0)
          ≤ K * stripeSize pszKB N := by
        rw [hdl]
        omega
      rw [ih (p + 1) 0
        (A ++ (D.drop (p * stripeSize pszKB N + mod)).take
          (min (stripeSize pszKB N - mod) R.length))
        (R.drop (min (stripeSize pszKB N - mod) R.length)) hS h2' h3']
      rw [List.append_assoc, hdl]
      congr 1
      rcases Nat.le_total R.length (stripeSize pszKB N - mod) with hle | hle
      · rw [min_eq_right hle, Nat.sub_self]
        simp
      · rw [min_eq_left hle]
        have h7 : R.length = (stripeSize pszKB N - mod)
            + (R.length - (stripeSize pszKB N - mod)) := by omega
        conv_rhs => rw [h7]
        rw [List.take_add]
        congr 1
        rw [List.drop_drop,
          show p * stripeSize pszKB N + mod + (stripeSize pszKB N - mod)
              = (p + 1) * stripeSize pszKB N + 0 from by omega]

end RaidRec

namespace RaidRec

/-- `ndisks` computed by `pread`/`get_size` on the synthesised geometry is the
array width. -/
theorem ndisksOf_synth (N pszKB K : Nat) : ndisksOf (synthGeometry N pszKB K) = N := by
  unfold ndisksOf synthGeometry
  rw [List.map_map]
  have h1 : ((fun image : DiskGeometry => image.raid_index)
      ∘ (fun m => (⟨m, m, 0, K * pszKB⟩ : DiskGeometry))) = fun m : Nat => m := by
    funext m
    rfl
  rw [h1]
  have h2 : (List.range N).map (fun m : Nat => m) = List.range N := by
    simp
  rw [h2, List.Nodup.dedup (List.nodup_range N), List.length_range]

/-- Loop invariant of `restore` on the synthesised set: restoring pages
`j, …, j+m−1` appends `D[j·S : (j+m)·S]` to the output file. -/
theorem restoreLoop_synth (D : List Nat) (N pszKB K : Nat) (hN : 3 ≤ N) (hP : 1 ≤ pszKB)
    (hD : D.length = K * stripeSize pszKB N) :
    ∀ (m j : Nat) (acc : List Nat), j + m ≤ K →
      restoreLoop ((List.range N).map (fun mm => memberFile D N pszKB K mm)) (pszKB * 1024)
        (List.range' j m) acc
      = some (acc ++ (D.drop (j * stripeSize pszKB N)).take (m * stripeSize pszKB N)) := by
  intro m
  induction m with
  | zero =>
    intro j acc hjm
    rw [List.range'_zero]
    show some acc = _
    rw [Nat.zero_mul, List.take_zero, List.append_nil]
  | succ m ih =>
    intro j acc hjm
    rw [List.range'_succ]
    have hlen : ((List.range N).map (fun mm => memberFile D N pszKB K mm)).length = N := by
      simp
    have hcov : (j + 1) * (pszKB * 1024 * (N - 1)) ≤ D.length := by
      rw [hD]
      show (j + 1) * stripeSize pszKB N ≤ K * stripeSize pszKB N
      exact Nat.mul_le_mul_right _ (by omega)
    have hdata : ((List.range N).map (fun mm => memberFile D N pszKB K mm)).map
        (fun c => read_page c (pszKB * 1024) j)
        = (List.range N).map (fun mm => memberPage D N pszKB mm j) := by
      rw [List.map_map]
      apply List.map_congr_left
      intro mm hmm2
      show read_page (memberFile D N pszKB K mm) (pszKB * 1024) j = _
      exact read_page_memberFile D N pszKB K mm j (by omega)
        (List.mem_range.1 hmm2) (by omega) hD
    simp only [restoreLoop]
    rw [hlen, hdata, stripe_parity_ok D N pszKB j (by omega) hcov, if_pos rfl]
    have hwrite : ((argsort (raid5_stripes N j)).drop 1).foldl
        (fun acc2 idx =>
          acc2 ++ ((List.range N).map (fun mm => memberPage D N pszKB mm j)).getD idx []) acc
        = acc ++ (D.drop (j * stripeSize pszKB N)).take (stripeSize pszKB N) := by
      rw [argsort_raid5_stripes N j (by omega)]
      simp only [List.drop_succ_cons, List.drop_zero]
      rw [foldl_append_eq_flatten, List.map_map]
      simp only [Function.comp_def]
      have hpt : ∀ d ∈ List.range (N - 1),
          ((List.range N).map (fun mm => memberPage D N pszKB mm j)).getD
            ((d + (N - j % N)) % N) []
          = dataPage D pszKB (j * (N - 1) + d) := by
        intro d hd
        have hd' := List.mem_range.1 hd
        have hoff : j % N < N := Nat.mod_lt _ (by omega)
        have hslt : (d + (N - j % N)) % N < N := Nat.mod_lt _ (by omega)
        rw [List.getD_eq_getElem _ _ (by simpa using hslt)]
        rw [List.getElem_map, List.getElem_range]
        have hne : (d + (N - j % N)) % N ≠ N - 1 - j % N := by
          intro hc
          have h1 := mod_cycle₁ N (j % N) d (le_of_lt hoff) (by omega)
          rw [hc] at h1
          have h2 : N - 1 - j % N + j % N = N - 1 := by omega
          rw [h2, Nat.mod_eq_of_lt (by omega)] at h1
          omega
        rw [memberPage_data D N pszKB j _ (by omega) hslt hne]
        rw [mod_cycle₁ N (j % N) d (le_of_lt hoff) (by omega)]
      rw [List.map_congr_left hpt, flatten_dataPages D pszKB (N - 1) (j * (N - 1))]
      simp only [stripeSize]
      rw [show j * (N - 1) * (pszKB * 1024) = j * (pszKB * 1024 * (N - 1)) from by ring,
        show (N - 1) * (pszKB * 1024) = pszKB * 1024 * (N - 1) from by ring]
    rw [hwrite]
    rw [ih (j + 1) _ (by omega)]
    rw [List.append_assoc]
    have hslice : (D.drop (j * stripeSize pszKB N)).take (stripeSize pszKB N)
        ++ (D.drop ((j + 1) * stripeSize pszKB N)).take (m * stripeSize pszKB N)
        = (D.drop (j * stripeSize pszKB N)).take ((m + 1) * stripeSize pszKB N) := by
      rw [show (m + 1) * stripeSize pszKB N
          = stripeSize pszKB N + m * stripeSize pszKB N from by ring]
      rw [List.take_add]
      congr 1
      rw [List.drop_drop,
        show j * stripeSize pszKB N + stripeSize pszKB N = (j + 1) * stripeSize pszKB N
          from by ring]
    rw [hslice]

end RaidRec

namespace RaidRec

/-! ### Claim theorems -/

/-- C1 (Translator equivalence): for a synthesised left-asymmetric RAID5 image
set built from data `D` — one full-extent image per member starting at offset
0, page size `pszKB` KB, `N ≥ 3` members, `|D| = K` stripes — and every
request with `offset + |buf| ≤ |D|`, `pread` fills the buffer with exactly the
bytes `D[offset : offset + |buf|]`. -/
theorem C1_translator_equivalence (N K pszKB : Nat) (D buf : List Nat) (offset : Nat)
    (hN : 3 ≤ N) (hP : 1 ≤ pszKB)
    (hD : D.length = K * stripeSize pszKB N)
    (hfit : offset + buf.length ≤ D.length) :
    pread (synthGeometry N pszKB K) (memberFile D N pszKB K) pszKB buf offset
    = (D.drop offset).take buf.length := by
  have hS : 0 < stripeSize pszKB N := by
    simp only [stripeSize]
    exact Nat.mul_pos (Nat.mul_pos (by omega) (by omega)) (by omega)
  simp only [pread]
  rw [ndisksOf_synth N pszKB K]
  rw [show pszKB * 1024 * (N - 1) = stripeSize pszKB N from rfl]
  have e1 : stripeSize pszKB N * (offset / stripeSize pszKB N)
      + offset % stripeSize pszKB N = offset := Nat.div_add_mod _ _
  have e2 : stripeSize pszKB N * ((offset + buf.length) / stripeSize pszKB N)
      + (offset + buf.length) % stripeSize pszKB N = offset + buf.length :=
    Nat.div_add_mod _ _
  have e3 : (offset + buf.length) % stripeSize pszKB N < stripeSize pszKB N :=
    Nat.mod_lt _ hS
  have e4 : offset / stripeSize pszKB N ≤ (offset + buf.length) / stripeSize pszKB N :=
    Nat.div_le_div_right (Nat.le_add_right _ _)
  have e5 : ((offset + buf.length) / stripeSize pszKB N + 1 - offset / stripeSize pszKB N)
        * stripeSize pszKB N
      = ((offset + buf.length) / stripeSize pszKB N + 1) * stripeSize pszKB N
        - (offset / stripeSize pszKB N) * stripeSize pszKB N := Nat.sub_mul _ _ _
  have e6 : ((offset + buf.length) / stripeSize pszKB N + 1) * stripeSize pszKB N
      = ((offset + buf.length) / stripeSize pszKB N) * stripeSize pszKB N
        + stripeSize pszKB N := by ring
  have e7 : (offset / stripeSize pszKB N) * stripeSize pszKB N
      = stripeSize pszKB N * (offset / stripeSize pszKB N) := by ring
  have e8 : ((offset + buf.length) / stripeSize pszKB N) * stripeSize pszKB N
      = stripeSize pszKB N * ((offset + buf.length) / stripeSize pszKB N) := by ring
  have key := preadLoop_synth D N pszKB K hN hP hD
    ((offset + buf.length) / stripeSize pszKB N + 1 - offset / stripeSize pszKB N)
    (offset / stripeSize pszKB N) (offset % stripeSize pszKB N) [] buf
    (Nat.mod_lt _ hS)
    (by omega)
    (by omega)
  simp only [List.nil_append, List.length_nil] at key
  rw [key]
  rw [show (offset / stripeSize pszKB N) * stripeSize pszKB N
      + offset % stripeSize pszKB N = offset from by omega]

/-- C2 (Restore round-trip): for data `D` whose length is divisible by
`P·(N−1)`, restoring all `K` pages of the synthesised member set, given in
column order, succeeds (every page passes the parity check it performs first)
and writes a file whose contents equal `D`; the `N−1` data pages of each
stripe are appended in ascending logical-index order via the argsort of the
stripe vector. -/
theorem C2_restore_roundtrip (N K pszKB : Nat) (D : List Nat)
    (hN : 3 ≤ N) (hP : 1 ≤ pszKB)
    (hD : D.length = K * stripeSize pszKB N) :
    restore ((List.range N).map (fun m => memberFile D N pszKB K m)) pszKB
      (List.range K)
    = some D := by
  show restoreLoop _ (pszKB * 1024) _ [] = _
  rw [List.range_eq_range' K]
  rw [restoreLoop_synth D N pszKB K hN hP hD K 0 [] (by omega)]
  rw [List.nil_append, Nat.zero_mul, List.drop_zero, ← hD, List.take_length]

end RaidRec

namespace RaidRec

/-! ### The `detected` dictionary of `guess_set` -/

theorem record_inv (Q : List Nat → Bool → Prop) :
    ∀ (det : List (List Nat × List Bool)) (c : List Nat) (b : Bool),
      (∀ e ∈ det, e.2 ≠ [] ∧ ∀ x ∈ e.2, Q e.1 x) → Q c b →
      ∀ e ∈ record det c b, e.2 ≠ [] ∧ ∀ x ∈ e.2, Q e.1 x := by
  intro det
  induction det with
  | nil =>
    intro c b _ hQ e he
    simp only [record, List.mem_singleton] at he
    subst he
    exact ⟨by simp, fun x hx => by rw [List.mem_singleton.1 hx]; exact hQ⟩
  | cons e0 rest ih =>
    intro c b hdet hQ e he
    simp only [record] at he
    by_cases h0 : e0.1 = c
    · rw [if_pos h0] at he
      rcases List.mem_cons.1 he with rfl | hrest
      · refine ⟨by simp, fun x hx => ?_⟩
        rcases List.mem_append.1 hx with hx | hx
        · exact (hdet e0 (by simp)).2 x hx
        · rw [List.mem_singleton.1 hx]
          show Q e0.1 b
          rw [h0]
          exact hQ
      · exact hdet e (by simp [hrest])
    · rw [if_neg h0] at he
      rcases List.mem_cons.1 he with rfl | hrest
      · exact hdet e (by simp)
      · exact ih c b (fun e' he' => hdet e' (by simp [he'])) hQ e hrest

theorem guessScanPage_inv (files : Nat → List Nat) (ps page : Nat) (ta : Bool)
    (pages : List Nat) (hpage : page ∈ pages) :
    ∀ (combs : List (List Nat)) (det : List (List Nat × List Bool)),
      (∀ e ∈ det, e.2 ≠ [] ∧ ∀ x ∈ e.2, ∃ pg ∈ pages,
        x = parity_check (e.1.map (fun f => read_page (files f) ps pg))) →
      ∀ e ∈ guessScanPage files ps page ta combs det,
        e.2 ≠ [] ∧ ∀ x ∈ e.2, ∃ pg ∈ pages,
          x = parity_check (e.1.map (fun f => read_page (files f) ps pg)) := by
  intro combs
  induction combs with
  | nil => intro det hdet e he; exact hdet e he
  | cons comb rest ih =>
    intro det hdet e he
    simp only [guessScanPage] at he
    have hrec := record_inv
      (fun c x => ∃ pg ∈ pages, x = parity_check (c.map (fun f => read_page (files f) ps pg)))
      det comb (parity_check (comb.map (fun f => read_page (files f) ps page)))
      hdet ⟨page, hpage, rfl⟩
    by_cases hc : (parity_check (comb.map fun f => read_page (files f) ps page) && !ta) = true
    · rw [if_pos hc] at he
      exact hrec e he
    · rw [if_neg hc] at he
      exact ih (record det comb _) hrec e he

theorem guess_fold_inv (files : Nat → List Nat) (ps : Nat) (ta : Bool)
    (combs : List (List Nat)) (pages : List Nat) :
    ∀ (ps' : List Nat), (∀ x ∈ ps', x ∈ pages) →
      ∀ det, (∀ e ∈ det, e.2 ≠ [] ∧ ∀ x ∈ e.2, ∃ pg ∈ pages,
          x = parity_check (e.1.map (fun f => read_page (files f) ps pg))) →
      ∀ e ∈ ps'.foldl (fun det page => guessScanPage files ps page ta combs det) det,
        e.2 ≠ [] ∧ ∀ x ∈ e.2, ∃ pg ∈ pages,
          x = parity_check (e.1.map (fun f => read_page (files f) ps pg)) := by
  intro ps'
  induction ps' with
  | nil => intro _ det hdet e he; exact hdet e he
  | cons pg0 rest ih =>
    intro hsub det hdet e he
    rw [List.foldl_cons] at he
    exact ih (fun x hx => hsub x (by simp [hx]))
      (guessScanPage files ps pg0 ta combs det)
      (guessScanPage_inv files ps pg0 ta pages (hsub pg0 (by simp)) combs det hdet)
      e he

theorem lookupComb_record (det : List (List Nat × List Bool)) (c c' : List Nat) (b : Bool) :
    lookupComb (record det c b) c'
    = if c' = c then some ((lookupComb det c').getD [] ++ [b])
      else lookupComb det c' := by
  induction det with
  | nil =>
    simp only [record, lookupComb]
    by_cases h : c = c'
    · rw [if_pos h, if_pos h.symm]
      simp
    · rw [if_neg h, if_neg (fun hc => h hc.symm)]
  | cons e0 rest ih =>
    simp only [record]
    by_cases h0 : e0.1 = c
    · rw [if_pos h0]
      by_cases h1 : e0.1 = c'
      · have hcc : c' = c := by rw [← h1, h0]
        simp only [lookupComb, if_pos h1, if_pos hcc, Option.getD_some]
      · have hcc : ¬ (c' = c) := fun hc => h1 (by rw [h0, hc])
        simp only [lookupComb, if_neg h1, if_neg hcc]
    · rw [if_neg h0]
      by_cases h1 : e0.1 = c'
      · have hcc : ¬ (c' = c) := fun hc => h0 (by rw [h1, hc])
        simp only [lookupComb, if_pos h1, if_neg hcc]
      · simp only [lookupComb, if_neg h1]
        exact ih

theorem guessScanPage_lookup_all (files : Nat → List Nat) (ps page : Nat) :
    ∀ (combs : List (List Nat)) (det : List (List Nat × List Bool)) (c : List Nat),
      lookupComb (guessScanPage files ps page true combs det) c
      = if combs.count c = 0 then lookupComb det c
        else some ((lookupComb det c).getD []
          ++ List.replicate (combs.count c)
              (parity_check (c.map (fun f => read_page (files f) ps page)))) := by
  intro combs
  induction combs with
  | nil => intro det c; simp [guessScanPage]
  | cons comb rest ih =>
    intro det c
    simp only [guessScanPage]
    rw [if_neg (by simp)]
    rw [ih (record det comb _) c, lookupComb_record det comb c _, List.count_cons]
    by_cases hc : c = comb
    · have hbeq : (comb == c) = true := by rw [hc]; exact beq_self_eq_true _
      rw [if_pos hc, hbeq, if_pos rfl, hc]
      by_cases hr : rest.count comb = 0
      · rw [hr, if_pos rfl, if_neg (by omega)]
        simp
      · rw [if_neg hr, if_neg (by omega)]
        rw [Option.getD_some, List.append_assoc, List.singleton_append,
          ← List.replicate_succ]
    · have hbeq : (comb == c) = false := beq_eq_false_iff_ne.2 (fun h => hc h.symm)
      rw [if_neg hc, hbeq]
      simp

theorem guess_fold_lookup_zero (files : Nat → List Nat) (ps : Nat)
    (combs : List (List Nat)) (c : List Nat) (hc : combs.count c = 0) :
    ∀ (pages : List Nat) (det : List (List Nat × List Bool)),
      lookupComb (pages.foldl
        (fun det page => guessScanPage files ps page true combs det) det) c
      = lookupComb det c := by
  intro pages
  induction pages with
  | nil => intro det; rfl
  | cons pg rest ih =>
    intro det
    rw [List.foldl_cons, ih, guessScanPage_lookup_all, if_pos hc]

theorem guess_fold_getD_all (files : Nat → List Nat) (ps : Nat)
    (combs : List (List Nat)) (c : List Nat) (hc : combs.count c ≠ 0) :
    ∀ (pages : List Nat) (det : List (List Nat × List Bool)),
      (lookupComb (pages.foldl
        (fun det page => guessScanPage files ps page true combs det) det) c).getD []
      = (lookupComb det c).getD []
        ++ (pages.map (fun page => List.replicate (combs.count c)
            (parity_check (c.map (fun f => read_page (files f) ps page))))).flatten := by
  intro pages
  induction pages with
  | nil => intro det; simp
  | cons pg rest ih =>
    intro det
    rw [List.foldl_cons, ih, guessScanPage_lookup_all, if_neg hc]
    rw [Option.getD_some, List.map_cons, List.flatten_cons, List.append_assoc]

theorem record_keys_mem :
    ∀ (det : List (List Nat × List Bool)) (c : List Nat) (b : Bool) (x : List Nat),
      x ∈ (record det c b).map (fun e => e.1)
      ↔ x ∈ det.map (fun e => e.1) ∨ x = c := by
  intro det
  induction det with
  | nil =>
    intro c b x
    simp [record]
  | cons e0 rest ih =>
    intro c b x
    simp only [record]
    by_cases h0 : e0.1 = c
    · rw [if_pos h0]
      simp only [List.map_cons, List.mem_cons]
      constructor
      · intro h
        rcases h with h | h
        · exact Or.inl (Or.inl h)
        · exact Or.inl (Or.inr h)
      · intro h
        rcases h with (h | h) | h
        · exact Or.inl h
        · exact Or.inr h
        · exact Or.inl (by rw [h, ← h0])
    · rw [if_neg h0]
      simp only [List.map_cons, List.mem_cons, ih c b x]
      tauto

theorem record_keys_nodup :
    ∀ (det : List (List Nat × List Bool)) (c : List Nat) (b : Bool),
      (det.map (fun e => e.1)).Nodup → ((record det c b).map (fun e => e.1)).Nodup := by
  intro det
  induction det with
  | nil => intro c b _; simp [record]
  | cons e0 rest ih =>
    intro c b h
    simp only [record]
    by_cases h0 : e0.1 = c
    · rw [if_pos h0]
      simpa using h
    · rw [if_neg h0]
      simp only [List.map_cons, List.nodup_cons] at h ⊢
      refine ⟨?_, ih c b h.2⟩
      intro hmem
      rcases (record_keys_mem rest c b e0.1).1 hmem with h1 | h1
      · exact h.1 h1
      · exact h0 h1

theorem guessScanPage_keys_nodup (files : Nat → List Nat) (ps page : Nat) (ta : Bool) :
    ∀ (combs : List (List Nat)) (det : List (List Nat × List Bool)),
      (det.map (fun e => e.1)).Nodup →
      ((guessScanPage files ps page ta combs det).map (fun e => e.1)).Nodup := by
  intro combs
  induction combs with
  | nil => intro det h; exact h
  | cons comb rest ih =>
    intro det h
    simp only [guessScanPage]
    split
    · exact record_keys_nodup det comb _ h
    · exact ih (record det comb _) (record_keys_nodup det comb _ h)

theorem guess_fold_keys_nodup (files : Nat → List Nat) (ps : Nat) (ta : Bool)
    (combs : List (List Nat)) :
    ∀ (pages : List Nat) (det : List (List Nat × List Bool)),
      (det.map (fun e => e.1)).Nodup →
      ((pages.foldl (fun det page => guessScanPage files ps page ta combs det)
        det).map (fun e => e.1)).Nodup := by
  intro pages
  induction pages with
  | nil => intro det h; exact h
  | cons pg rest ih =>
    intro det h
    rw [List.foldl_cons]
    exact ih _ (guessScanPage_keys_nodup files ps pg ta combs det h)

theorem lookupComb_of_mem :
    ∀ (det : List (List Nat × List Bool)) (e : List Nat × List Bool),
      e ∈ det → (det.map (fun x => x.1)).Nodup → lookupComb det e.1 = some e.2 := by
  intro det
  induction det with
  | nil => intro e he; simp at he
  | cons e0 rest ih =>
    intro e he hnd
    simp only [lookupComb]
    rcases List.mem_cons.1 he with rfl | hrest
    · rw [if_pos rfl]
    · simp only [List.map_cons, List.nodup_cons] at hnd
      by_cases h0 : e0.1 = e.1
      · exfalso
        apply hnd.1
        rw [h0]
        exact List.mem_map.2 ⟨e, hrest, rfl⟩
      · rw [if_neg h0]
        exact ih e hrest hnd.2

end RaidRec

namespace RaidRec

/-- Claim C1 witness: a concrete synthesised set (`N = 3`, 1-KB pages, one
stripe) on which the `pread` equivalence theorem applies. -/
theorem C1_witness :
    pread (synthGeometry 3 1 1) (memberFile exD 3 1 1) 1 (List.replicate 5 7) 0
    = (exD.drop 0).take (List.replicate 5 7).length :=
  C1_translator_equivalence 3 1 1 exD (List.replicate 5 7) 0 (by norm_num) (by norm_num)
    (by rw [show exD.length = 2048 from List.length_replicate 2048 0]
        norm_num [stripeSize])
    (by rw [show (List.replicate 5 7).length = 5 from List.length_replicate 5 7,
          show exD.length = 2048 from List.length_replicate 2048 0]
        norm_num)

/-- Claim C2 witness: restoring the one-stripe synthesised set reproduces the
data. -/
theorem C2_witness :
    restore ((List.range 3).map (fun m => memberFile exD 3 1 1 m)) 1 (List.range 1)
    = some exD :=
  C2_restore_roundtrip 3 1 1 exD (by norm_num) (by norm_num)
    (by rw [show exD.length = 2048 from List.length_replicate 2048 0]
        norm_num [stripeSize])

/-- Claim C3 counterexample: for `N = 3`, `page = 0` the stripe vector is
`[0, 1, -1]`, whose parity marker sits at index 2, not at
`(N − page mod N) mod N = 0` as the claim states. -/
theorem C3_counterexample :
    raid5_stripes 3 0 = [0, 1, -1]
    ∧ ¬ ((raid5_stripes 3 0).findIdx (fun v => v == -1) = (3 - 0 % 3) % 3) := by
  decide

/-- Claim C3 (amended): for every `N ≥ 3` and page index, the index of the
parity marker `-1` in `raid5_stripes N page` is `N − 1 − (page mod N)` (the
claimed value `(N − page mod N) mod N` is off by one). -/
theorem C3_rotation_amended (N p : Nat) (hN : 3 ≤ N) :
    (raid5_stripes N p).findIdx (fun v => v == -1) = N - 1 - p % N := by
  have hN1 : 1 ≤ N := by omega
  have hoff : p % N < N := Nat.mod_lt _ (by omega)
  have hq : N - 1 - p % N < N := by omega
  rw [raid5_stripes_eq N p hN1]
  rw [range_split N (N - 1 - p % N) hq, List.map_append, List.map_cons]
  rw [findIdx_append_of]
  · simp
  · intro x hx
    obtain ⟨s, hs, rfl⟩ := List.mem_map.1 hx
    have hs' := List.mem_range.1 hs
    have hcond : (s + p % N) % N < N - 1 := by
      have h1 : s + p % N < N - 1 := by omega
      rw [Nat.mod_eq_of_lt (by omega)]
      exact h1
    simp only [if_pos hcond]
    refine beq_eq_false_iff_ne.2 ?_
    intro hcast
    have h2 := Int.natCast_nonneg (p * (N - 1) + (s + p % N) % N)
    rw [hcast] at h2
    norm_num at h2
  · have hcond : ¬ ((N - 1 - p % N + p % N) % N < N - 1) := by
      have h1 : N - 1 - p % N + p % N = N - 1 := by omega
      rw [h1, Nat.mod_eq_of_lt (by omega)]
      omega
    simp only [if_neg hcond]
    rfl

/-- Claim C3 witness: `N = 4`, `page = 5` — the marker sits at index
`4 − 1 − (5 mod 4) = 2`. -/
theorem C3_witness :
    (raid5_stripes 4 5).findIdx (fun v => v == -1) = 4 - 1 - 5 % 4 :=
  C3_rotation_amended 4 5 (by norm_num)

/-- Claim C4 counterexample: `raid5_stripes 4 1 = [4, 5, -1, 3]`, and reading
left-to-right past the marker gives `4, 5, 3`, which is not strictly
increasing. -/
theorem C4_counterexample :
    raid5_stripes 4 1 = [4, 5, -1, 3]
    ∧ strictlyIncreasing ((raid5_stripes 4 1).filter (fun v => !(v == -1))) = false := by
  decide

/-- Claim C4 (amended): the data indices appear in strictly increasing order
only when the vector is read cyclically starting just after the parity
marker: the `j`-th slot so visited (`j < N − 1`) holds exactly the linear
index `page·(N−1) + j`. -/
theorem C4_cyclic_order_amended (N p j : Nat) (hN : 3 ≤ N) (hj : j < N - 1) :
    (raid5_stripes N p).getD ((N - p % N + j) % N) 0
    = ((p * (N - 1) + j : Nat) : Int) := by
  have hN1 : 1 ≤ N := by omega
  have hoff : p % N < N := Nat.mod_lt _ (by omega)
  have hs : (N - p % N + j) % N < N := Nat.mod_lt _ (by omega)
  have hres : ((N - p % N + j) % N + p % N) % N = j := by
    rw [Nat.mod_add_mod]
    have h1 : N - p % N + j + p % N = j + N := by omega
    rw [h1, Nat.add_mod_right, Nat.mod_eq_of_lt (by omega)]
  have hne : (N - p % N + j) % N ≠ N - 1 - p % N := by
    intro hc
    rw [hc] at hres
    have h1 : N - 1 - p % N + p % N = N - 1 := by omega
    rw [h1, Nat.mod_eq_of_lt (by omega)] at hres
    omega
  rw [raid5_stripes_getD_data N p _ hN1 hs hne, hres]

/-- Claim C4 witness: `N = 4`, `page = 1`, `j = 1`: the second slot after the
marker (cyclically) holds index `1·3 + 1 = 4`. -/
theorem C4_witness :
    (raid5_stripes 4 1).getD ((4 - 1 % 4 + 1) % 4) 0 = ((1 * (4 - 1) + 1 : Nat) : Int) :=
  C4_cyclic_order_amended 4 1 1 (by norm_num) (by norm_num)

/-- Claim C5 (code bug): on a valid geometry file with three members of 4 KB
each, `get_size` returns 8388608 — `Σ(end_bytes − start_bytes) · 1024 ·
(N−1) // N` — that is, 1024 times the value `Σ(end_bytes − start_bytes) ·
(N−1) // N = 8192` demanded by the claim: `read_geometry` already converted
the KB fields to bytes, and `get_size` multiplies by 1024 again. -/
theorem C5_get_size_bug :
    get_size (read_geometry exC5records) = 8388608
    ∧ ((read_geometry exC5records).map
        (fun image => image.endKB - image.startKB)).sum
        * (ndisksOf (read_geometry exC5records) - 1)
        / ndisksOf (read_geometry exC5records) = 8192
    ∧ get_size (read_geometry exC5records)
      ≠ ((read_geometry exC5records).map
          (fun image => image.endKB - image.startKB)).sum
          * (ndisksOf (read_geometry exC5records) - 1)
          / ndisksOf (read_geometry exC5records) := by
  have h0 : (⌊(0 : ℚ) * 1024⌋).toNat = 0 := by
    rw [show ⌊(0 : ℚ) * 1024⌋ = 0 from by norm_num]
    rfl
  have h4 : (⌊(4 : ℚ) * 1024⌋).toNat = 4096 := by
    rw [show ⌊(4 : ℚ) * 1024⌋ = 4096 from by norm_num]
    rfl
  have hg : read_geometry exC5records
      = [⟨0, 0, 0, 4096⟩, ⟨1, 1, 0, 4096⟩, ⟨2, 2, 0, 4096⟩] := by
    simp only [read_geometry, exC5records, List.map_cons, List.map_nil, h0, h4]
  rw [hg]
  refine ⟨by decide, by decide, by decide⟩

/-- Claim C6 (code bug): `test_parity` prints its summary from the loop
variable `check` (the last probed page) instead of the accumulated `passed`
flag.  On two pages where parity fails on page 0 and holds on page 1, the
printed verdict is `passed` although a probed page failed (the dead `passed`
flag is `False`). -/
theorem C6_test_parity_bug :
    test_parity exC6contents 1 [0, 1] = some true
    ∧ (test_parityRun exC6contents 1 [0, 1]).1 = false := by
  decide

/-- Claim C10: with an empty page set `test_parity` never assigns the loop
variable `check` and the final summary print raises `NameError` (modelled as
`none`); it does not return a vacuous passed verdict. -/
theorem C10_empty_pages_error (contents : List (List Nat)) (pagesize : Nat) :
    test_parity contents pagesize [] = none := rfl

end RaidRec

namespace RaidRec

/-- Claim C7 counterexample: with a single candidate combination probed on two
pages, page 0 passes the parity check yet the combination is rejected —
`detected[comb]` also records the failing page 1, and acceptance requires all
recorded checks to pass.  This refutes "accepts iff at least one page
passes". -/
theorem C7_counterexample :
    guess_set [0, 1, 2] 3 exC7files 1 [0, 1] false = []
    ∧ parity_check ([0, 1, 2].map (fun f => read_page (exC7files f) 1 0)) = true := by
  decide

/-- Claim C7 (amended): in first-match mode, `guess_set` accepts a combination
only if at least one page of the page set passes the parity check for it (the
converse direction of the claim fails: a combination probed on a failing page
is rejected even when another page passes). -/
theorem C7_first_match_amended (fnames : List Nat) (ndisks : Nat)
    (files : Nat → List Nat) (pagesize : Nat) (pages : List Nat) (comb : List Nat)
    (h : comb ∈ guess_set fnames ndisks files pagesize pages false) :
    ∃ page ∈ pages,
      parity_check (comb.map (fun f => read_page (files f) pagesize page)) = true := by
  simp only [guess_set] at h
  obtain ⟨e, hef, he1⟩ := List.mem_map.1 h
  obtain ⟨hedet, hall⟩ := List.mem_filter.1 hef
  have hinv := guess_fold_inv files pagesize false (combinations ndisks fnames) pages pages
    (fun x hx => hx) [] (by simp) e hedet
  obtain ⟨hne, hQ⟩ := hinv
  obtain ⟨x, hx⟩ := List.exists_mem_of_ne_nil e.2 hne
  obtain ⟨pg, hpg, hxeq⟩ := hQ x hx
  refine ⟨pg, hpg, ?_⟩
  rw [← he1, ← hxeq]
  exact List.all_eq_true.1 hall x hx

/-- Claim C7 witness: a combination accepted in first-match mode, for which
the theorem exhibits a passing page. -/
theorem C7_witness :
    ∃ page ∈ [0],
      parity_check ([0, 1, 2].map (fun f => read_page (exZeroFiles f) 1 page)) = true :=
  C7_first_match_amended [0, 1, 2] 3 exZeroFiles 1 [0] [0, 1, 2] (by decide)

/-- Claim C8 (membership-search soundness): in `test_all` mode, `guess_set`
returns a combination only if the parity check holds for it on every page of
the page set — any single failing page excludes the combination, since every
page records a check for every combination and acceptance requires all of
them to be true. -/
theorem C8_membership_soundness (fnames : List Nat) (ndisks : Nat)
    (files : Nat → List Nat) (pagesize : Nat) (pages : List Nat) (comb : List Nat)
    (h : comb ∈ guess_set fnames ndisks files pagesize pages true) :
    ∀ page ∈ pages,
      parity_check (comb.map (fun f => read_page (files f) pagesize page)) = true := by
  intro page hpage
  simp only [guess_set] at h
  obtain ⟨e, hef, he1⟩ := List.mem_map.1 h
  obtain ⟨hedet, hall⟩ := List.mem_filter.1 hef
  have hnd := guess_fold_keys_nodup files pagesize true (combinations ndisks fnames)
    pages [] (by simp)
  have hlk := lookupComb_of_mem _ e hedet hnd
  by_cases hc : (combinations ndisks fnames).count e.1 = 0
  · rw [guess_fold_lookup_zero files pagesize _ e.1 hc pages []] at hlk
    simp [lookupComb] at hlk
  · have hF := guess_fold_getD_all files pagesize (combinations ndisks fnames) e.1 hc
      pages []
    rw [hlk, Option.getD_some] at hF
    simp only [lookupComb, Option.getD_none, List.nil_append] at hF
    have hx : parity_check (e.1.map (fun f => read_page (files f) pagesize page)) ∈ e.2 := by
      rw [hF]
      refine List.mem_flatten.2
        ⟨List.replicate ((combinations ndisks fnames).count e.1)
          (parity_check (e.1.map (fun f => read_page (files f) pagesize page))), ?_, ?_⟩
      · exact List.mem_map.2 ⟨page, hpage, rfl⟩
      · exact List.mem_replicate.2 ⟨hc, rfl⟩
    have hx2 := List.all_eq_true.1 hall _ hx
    rw [← he1]
    exact hx2

/-- Claim C8 witness: a combination accepted in `test_all` mode, to which the
soundness theorem applies. -/
theorem C8_witness :
    parity_check ([0, 1, 2].map (fun f => read_page (exZeroFiles f) 1 0)) = true :=
  C8_membership_soundness [0, 1, 2] 3 exZeroFiles 1 [0] [0, 1, 2] (by decide) 0 (by decide)

/-- Claim C9 counterexample: on a geometry whose members cover only the page
at 1 KB, a read touching the uncovered page 0 returns normally with the
buffer's stale initial contents; the source raises no `GeometryGap` (or any
other) error — no such error path exists in `pread`. -/
theorem C9_counterexample :
    pread exC9geometry (fun i => [5]) 1 [7, 7, 7, 7] 0 = [7, 7, 7, 7] := by
  decide

/-- Claim C9 (amended): `pread` does not fail on a geometry gap.  A page
covered by no member image contributes no bytes to the assembled stripe; in
particular, when the first required page of a request is wholly uncovered the
empty stripe buffer makes `mylen = 0` and the loop breaks, returning the
buffer untouched instead of raising an error. -/
theorem C9_gap_amended (geometry : List DiskGeometry) (files : Nat → List Nat)
    (pagesizeKB : Nat) (buf : List Nat) (offset : Nat)
    (hS : 0 < pagesizeKB * 1024 * (ndisksOf geometry - 1))
    (hgap : uncoveredPage geometry
      ((offset / (pagesizeKB * 1024 * (ndisksOf geometry - 1))) * pagesizeKB)) :
    pread geometry files pagesizeKB buf offset = buf := by
  simp only [pread]
  have hm : (offset + buf.length) / (pagesizeKB * 1024 * (ndisksOf geometry - 1)) + 1
      - offset / (pagesizeKB * 1024 * (ndisksOf geometry - 1))
      = ((offset + buf.length) / (pagesizeKB * 1024 * (ndisksOf geometry - 1))
        - offset / (pagesizeKB * 1024 * (ndisksOf geometry - 1))) + 1 := by
    have h1 := Nat.div_le_div_right (c := pagesizeKB * 1024 * (ndisksOf geometry - 1))
      (Nat.le_add_right offset buf.length)
    omega
  rw [hm, List.range'_succ]
  have hslot : ∀ raid_idx, readStripeSlot geometry files pagesizeKB
      ((offset / (pagesizeKB * 1024 * (ndisksOf geometry - 1))) * pagesizeKB) raid_idx
      = [] := by
    intro raid_idx
    show (geometry.filter _).foldl _ [] = []
    have hf : geometry.filter (fun image =>
        image.raid_index == raid_idx
          && decide (image.startKB
            ≤ offset / (pagesizeKB * 1024 * (ndisksOf geometry - 1)) * pagesizeKB)
          && decide (offset / (pagesizeKB * 1024 * (ndisksOf geometry - 1)) * pagesizeKB
            < image.endKB)) = [] := by
      refine List.filter_eq_nil_iff.2 ?_
      intro image himg hcond
      simp only [Bool.and_eq_true, decide_eq_true_eq] at hcond
      exact hgap image himg ⟨hcond.1.2, hcond.2⟩
    rw [hf]
    rfl
  rw [preadLoop_cons_eq geometry files pagesizeKB (ndisksOf geometry) _ _ buf 0 _ []
    ?hmb 0 ?hml]
  · rw [if_pos rfl]
  case hmb =>
    rw [foldl_append_eq_flatten, List.nil_append]
    rw [List.map_congr_left (fun x _ => hslot x)]
    simp
  case hml =>
    simp

/-- Claim C9 witness: the amended no-error behaviour on the concrete gap
geometry. -/
theorem C9_witness :
    pread exC9geometry (fun i => List.replicate 1024 9) 1 (List.replicate 4 7) 0
    = List.replicate 4 7 :=
  C9_gap_amended exC9geometry (fun i => List.replicate 1024 9) 1 (List.replicate 4 7) 0
    (by decide) (by unfold uncoveredPage; decide)

end RaidRec
